import Mathlib

/-!
Verification of the incremental snapshot-to-event reconciliation engine of
`src/process_data.py` (topenergy-outages).  The Python module is shallow-embedded:
JSON values become the inductive `JVal`, the mutable event dictionary becomes an
insertion-ordered association list of `Event` structures, exceptions become
`Except PyErr`, and each Python function is translated into a Lean definition of
the same name (module-level constants included).  Python strings are modelled as
Lean strings; single-character `str.replace` calls are modelled character-wise
(exact for one-character patterns), the one multi-character `str.replace` call is
modelled by the fuel-driven `replFuel`.
-/

namespace TopEnergy

/-- JSON-like values, used for the opaque per-outage detail payloads and for the
raw content of the persisted artifact.  Arrays and objects are encoded as cons
chains (`anil`/`acons`, `onil`/`ocons`) so that all recursion stays structural;
parsed Python JSON values are represented by the canonical chains. -/
inductive JVal : Type where
  | null : JVal
  | bool : Bool → JVal
  | num : Int → JVal
  | str : String → JVal
  | anil : JVal
  | acons : JVal → JVal → JVal
  | onil : JVal
  | ocons : String → JVal → JVal → JVal
deriving DecidableEq, Repr

/-- The Python exceptions that the script can raise (uncaught) on the paths we
model: `json.JSONDecodeError`, `KeyError`, `AttributeError`, `TypeError`. -/
inductive PyErr : Type where
  | jsonDecodeError : PyErr
  | keyError : PyErr
  | attributeError : PyErr
  | typeError : PyErr
deriving DecidableEq, Repr

/-- Python truthiness of a JSON value (`if details:` etc.). -/
def JVal.truthy : JVal → Bool
  | .null => false
  | .bool b => b
  | .num n => n != 0
  | .str s => s ≠ ""
  | .anil => false
  | .acons _ _ => true
  | .onil => false
  | .ocons _ _ _ => true

/-- Whether the value is a Python `dict` (a JSON object). -/
def JVal.isObj : JVal → Bool
  | .onil => true
  | .ocons _ _ _ => true
  | _ => false

/-- `d.get(key)` on an object chain: first binding of `key`, `none` when absent
(or when the value is not an object at all — callers check `isObj` where the
Python code would raise instead). -/
def JVal.get : JVal → String → Option JVal
  | .ocons k v tl, key => if k = key then some v else JVal.get tl key
  | _, _ => none

/-- `d.get(key, default)`. -/
def JVal.getD (d : JVal) (key : String) (dflt : JVal) : JVal :=
  (d.get key).getD dflt

mutual

/-- Python `repr` of a JSON value (as seen when a container is interpolated
into an f-string). -/
def JVal.pyRepr : JVal → String
  | .null => "None"
  | .bool true => "True"
  | .bool false => "False"
  | .num n => toString n
  | .str s => "\x27" ++ s ++ "\x27"
  | .anil => "[]"
  | .acons h t => "[" ++ JVal.pyRepr h ++ JVal.pyReprArrTail t ++ "]"
  | .onil => "\x7b\x7d"
  | .ocons k v t =>
      "\x7b\x27" ++ k ++ "\x27: " ++ JVal.pyRepr v ++ JVal.pyReprObjTail t ++ "\x7d"

/-- `", elem"` repr fragments for the remaining elements of an array chain. -/
def JVal.pyReprArrTail : JVal → String
  | .acons h t => ", " ++ JVal.pyRepr h ++ JVal.pyReprArrTail t
  | _ => ""

/-- `", key: value"` repr fragments for the remaining bindings of an object chain. -/
def JVal.pyReprObjTail : JVal → String
  | .ocons k v t => ", \x27" ++ k ++ "\x27: " ++ JVal.pyRepr v ++ JVal.pyReprObjTail t
  | _ => ""

end

/-- Python `str()` of a JSON value, as used by f-string interpolation. -/
def JVal.pyStr : JVal → String
  | .str s => s
  | v => v.pyRepr

/-- `str()` of an optional value (`None` prints as `"None"`). -/
def pyStrO : Option JVal → String
  | none => "None"
  | some v => v.pyStr

/-- Python truthiness of `dict.get`'s result (`None` when the key is absent). -/
def truthyO : Option JVal → Bool
  | none => false
  | some v => v.truthy

/-- `str()` of an optional integer field. -/
def pyStrInt : Option Int → String
  | none => "None"
  | some n => toString n

/-- One record of `outageList["active"]`, with the four keys the script reads.
`name = none` models a record whose `'name'` key is absent (as opposed to
present but empty). -/
structure Outage where
  name : Option String
  circuitName : Option String
  customersCurrentlyOff : Option Int
  type : Option String
deriving DecidableEq, Repr

/-- A successfully parsed snapshot file, after the `data.get(...)` defaults of
`process_files` have been applied: `timestamp = data.get("timestamp", "")`,
`active = data.get("rawFrontendInitData", {}).get("outageList", {}).get("active", [])`,
`detailedOutageInfo = data.get("detailedOutageInfo", {})` as an association
list keyed by outage id. -/
structure Snapshot where
  timestamp : String
  active : List Outage
  detailedOutageInfo : List (String × JVal)
deriving DecidableEq, Repr

/-- One event record of the output dictionary.  Fields mirror the dict literal
built at creation: `extendedProps` is flattened into `type`, `customers`,
`circuit`, `detail_history` and the serialize-time `body` (absent — `none` —
until `main` sets it). -/
structure Event where
  id : String
  title : String
  start : String
  «end» : Option String
  allDay : Bool
  type : Option String
  customers : Option Int
  circuit : Option String
  detail_history : List (String × JVal)
  body : Option String
deriving DecidableEq, Repr

/-- The persisted output document `public/outages.json`:
`{"lastProcessedFile": ..., "events": [...]}` with the events in dictionary
(insertion) order. -/
structure Artifact where
  lastProcessedFile : String
  events : List Event
deriving DecidableEq, Repr

/-- Single-character Python `str.replace`, modelled character-wise. -/
def replaceChar (a b : Char) (s : String) : String :=
  ⟨s.data.map (fun c => if c = a then b else c)⟩

/-- `f.replace("\\", "/")`, the path normalization applied before comparing and
persisting file names. -/
def normSlash (s : String) : String :=
  replaceChar '\\' '/' s

/-- The timestamp normalization of `process_files`:
`timestamp_str[:10] + timestamp_str[10:].replace('-', ':')`. -/
def normTs (s : String) : String :=
  ⟨s.data.take 10 ++ (s.data.drop 10).map (fun c => if c = '-' then ':' else c)⟩

/-- Fuel-driven leftmost, non-overlapping multi-character replacement
(Python `str.replace` semantics); the fuel is the length of the input. -/
def replFuel (pat rep : List Char) : Nat → List Char → List Char
  | 0, l => l
  | _ + 1, [] => []
  | fuel + 1, c :: rest =>
    if pat ≠ [] ∧ pat.isPrefixOf (c :: rest) then
      rep ++ replFuel pat rep fuel ((c :: rest).drop pat.length)
    else
      c :: replFuel pat rep fuel rest

/-- Python `s.replace(pat, rep)` for a non-empty pattern. -/
def pyReplace (s pat rep : String) : String :=
  ⟨replFuel pat.data rep.data s.data.length s.data⟩

/-- Association-list lookup with `==` on the key, i.e. `dict.get(key)` for a
parsed-JSON dictionary (keys unique). -/
def lookupJ (m : List (String × JVal)) (k : String) : Option JVal :=
  (m.find? (fun p => p.1 == k)).map (·.2)

/-- `events.find` by id: the dictionary lookup `outage_id in events` /
`events[outage_id]` over the insertion-ordered event list. -/
def findEvent (events : List Event) (oid : String) : Option Event :=
  events.find? (fun e => e.id == oid)

/-- The f-string title of a new event:
`f"{outage.get('circuitName', 'Unknown')} ({outage.get('customersCurrentlyOff')} customers)"`. -/
def mkTitle (o : Outage) : String :=
  (o.circuitName.getD "Unknown") ++ " (" ++ pyStrInt o.customersCurrentlyOff ++ " customers)"

/-- The dict literal created for a newly started outage (lines 123–136). -/
def mkNewEvent (ts : String) (oid : String) (o : Outage) : Event :=
  { id := oid
    title := mkTitle o
    start := ts
    «end» := none
    allDay := false
    type := o.type
    customers := o.customersCurrentlyOff
    circuit := o.circuitName
    detail_history := []
    body := none }

/-- The history accumulator (lines 139–149, given a truthy `details` payload):
append `(timestamp, details)` unless the payload equals the last entry's. -/
def appendIfChanged (history : List (String × JVal)) (ts : String) (d : JVal) :
    List (String × JVal) :=
  if (history.getLast?).map (·.2) = some d then history else history ++ [(ts, d)]

/-- The in-place update `events[outage_id]["extendedProps"]["detail_history"] = history`
performed on the dictionary entry for `oid` (all other entries untouched). -/
def updHist (oid ts : String) (d : JVal) (e : Event) : Event :=
  if e.id == oid then { e with detail_history := appendIfChanged e.detail_history ts d }
  else e

/-- The body of `for outage in active_outages:` (lines 108–149) for a single
record: skip falsy names, create the event when the id is new, then append the
detail payload to the history when it is truthy and changed. -/
def stepOutage (ts : String) (detailsMap : List (String × JVal))
    (events : List Event) (o : Outage) : List Event :=
  match o.name with
  | none => events
  | some oid =>
    if oid = "" then events
    else
      let details := lookupJ detailsMap oid
      let events1 :=
        if (findEvent events oid).isSome then events
        else events ++ [mkNewEvent ts oid o]
      match details with
      | some d => if d.truthy then events1.map (updHist oid ts d) else events1
      | none => events1

/-- `current_active_ids = {outage['name'] for outage in active_outages}`
(line 110): the comprehension evaluates records in order and a `KeyError` at
the first record lacking `'name'` aborts the fold.  Membership is all that is
used of the resulting set, so it is modelled as the list of names. -/
def currentActiveIds : List Outage → Except PyErr (List String)
  | [] => Except.ok []
  | o :: rest =>
    match o.name with
    | none => Except.error PyErr.keyError
    | some n => do
      let ns ← currentActiveIds rest
      Except.ok (n :: ns)

/-- The per-event effect of the finished-outage pass: set `end` when the id was
active before, is not active now, and the event is still open. -/
def closeIfFinished (ts : String) (prevActive currentActive : List String)
    (e : Event) : Event :=
  if e.id ∈ prevActive ∧ e.id ∉ currentActive ∧ e.«end» = none then
    { e with «end» := some ts }
  else e

/-- The finished-outage pass (lines 151–158) over the event dictionary. -/
def finishStep (ts : String) (prevActive currentActive : List String)
    (events : List Event) : List Event :=
  events.map (closeIfFinished ts prevActive currentActive)

/-- One iteration of the file loop of `process_files`: `none` models a file on
which `json.load` raises.  The state is the event dictionary plus
`previously_active_ids`. -/
def processSnapshot (st : List Event × List String) (file : Option Snapshot) :
    Except PyErr (List Event × List String) :=
  match file with
  | none => Except.error PyErr.jsonDecodeError
  | some data => do
    let ts := normTs data.timestamp
    let currentActive ← currentActiveIds data.active
    let events1 := data.active.foldl (stepOutage ts data.detailedOutageInfo) st.1
    let events2 := finishStep ts st.2 currentActive events1
    Except.ok (events2, currentActive)

/-- The stateful fold underlying `process_files`. -/
def processFilesSt (files : List (Option Snapshot)) (st : List Event × List String) :
    Except PyErr (List Event × List String) :=
  files.foldlM processSnapshot st

/-- `process_files(new_files, existing_data)` (lines 86–160): fold the parsed
files over the existing events, starting with
`previously_active_ids = set(events.keys())`. -/
def process_files (new_files : List (Option Snapshot)) (existing : List Event) :
    Except PyErr (List Event) := do
  let st ← processFilesSt new_files (existing, existing.map (·.id))
  Except.ok st.1

/-- One `"- ts: cause"` line of the update-history section: `entry.get('details', \x7b\x7d)`
always yields the stored payload, whose `.get('cause', 'N/A')` raises
`AttributeError` when the payload is not a dict. -/
def formatEntryLine (entry : String × JVal) : Except PyErr String :=
  if entry.2.isObj then
    Except.ok ("- " ++ entry.1 ++ ": " ++ JVal.pyStr (entry.2.getD "cause" (JVal.str "N/A")))
  else Except.error PyErr.attributeError

/-- `format_full_history_body(event)` (lines 52–84): the serialize-time summary.
Failure cases are the uncaught `AttributeError`s Python raises when a stored
detail payload (or its `streets`/`showStreets` members) has an unexpected shape. -/
def format_full_history_body (event : Event) : Except PyErr String :=
  match event.detail_history.getLast? with
  | none => Except.ok ("**Outage ID:** " ++ event.id)
  | some latest =>
    let latest_details := latest.2
    if ¬ latest_details.isObj then Except.error PyErr.attributeError
    else
      let streets := latest_details.getD "streets" JVal.onil
      if ¬ streets.isObj then Except.error PyErr.attributeError
      else
        match streets.getD "showStreets" (JVal.str "N/A") with
        | JVal.str roads => do
          let affected_roads := pyReplace roads ", " "\n"
          let body_parts : List String :=
            [ "**Outage ID:** " ++ event.id
            , "**Status:** " ++ JVal.pyStr (latest_details.getD "status" (JVal.str "N/A"))
            , "**Feeder / Circuit:** " ++ JVal.pyStr (latest_details.getD "feeder" (JVal.str "N/A"))
            , "**Cause:** " ++ JVal.pyStr (latest_details.getD "cause" (JVal.str "N/A"))
            , "**Customers Affected:** " ++
                JVal.pyStr (latest_details.getD "customersAffected" (JVal.str "N/A"))
            , "**Suburbs:** " ++ JVal.pyStr (latest_details.getD "suburbs" (JVal.str "N/A"))
            , "---", "**Affected Roads:**", affected_roads, "---" ]
          if event.detail_history.length > 1 then do
            let lines ← event.detail_history.reverse.mapM formatEntryLine
            Except.ok (String.intercalate "\n" (body_parts ++ ["**Update History:**"] ++ lines))
          else
            Except.ok (String.intercalate "\n" body_parts)
        | _ => Except.error PyErr.attributeError

/-- The body-generation loop of `main` (lines 176–178): set
`event["extendedProps"]["body"]` for every event, in dictionary order. -/
def serializeEvents (events : List Event) : Except PyErr (List Event) :=
  events.mapM (fun e => do
    let b ← format_full_history_body e
    Except.ok { e with body := some b })

/-- `\x7bevent['id']: event for event in data['events']\x7d` over structured events:
Python dict-comprehension semantics (first position, last value wins). -/
def dictById (events : List Event) : List Event :=
  events.foldl
    (fun d e =>
      if d.any (fun x => x.id == e.id) then
        d.map (fun x => if x.id == e.id then e else x)
      else d ++ [e])
    []

/-- `get_last_processed_file` (lines 11–33) restricted to the artifacts this
engine itself writes: the file, when present, parses to an object that always
has an `"events"` list of well-formed event records, so the only remaining
branch condition is the truthiness of `"lastProcessedFile"`. -/
def resumeArtifact (disk : Option Artifact) : Option String × List Event :=
  match disk with
  | none => (none, [])
  | some art =>
    if art.lastProcessedFile = "" then (none, [])
    else (some art.lastProcessedFile, dictById art.events)

/-- The scan of `find_new_files` (lines 42–46): suffix strictly after the first
path equal (up to slash normalization) to the checkpoint, `none` when absent. -/
def find_after (lp : String) :
    List (String × Option Snapshot) → Option (List (String × Option Snapshot))
  | [] => none
  | f :: rest => if normSlash f.1 = normSlash lp then some rest else find_after lp rest

/-- `find_new_files(last_processed_file)` (lines 35–50) over the sorted store
listing (the code sorts the recursive glob; the model takes that listing as
input): everything when there is no checkpoint, the suffix after the checkpoint
when it is found, and everything again when it is not. -/
def find_new_files (last : Option String) (all_files : List (String × Option Snapshot)) :
    List (String × Option Snapshot) :=
  match last with
  | none => all_files
  | some lp => (find_after lp all_files).getD all_files

/-- The tail of `main` after resume (lines 169–188): return `none` without
writing when there are no new files, otherwise fold, generate bodies and build
the new artifact with `lastProcessedFile = new_files[-1].replace("\\", "/")`. -/
def processAndWrite (new_files : List (String × Option Snapshot)) (existing : List Event) :
    Except PyErr (Option Artifact) :=
  match new_files.getLast? with
  | none => Except.ok none
  | some lastF => do
    let events ← process_files (new_files.map (·.2)) existing
    let events2 ← serializeEvents events
    Except.ok (some { lastProcessedFile := normSlash lastF.1, events := events2 })

/-- `main()` (lines 162–190) as a state transformer on the persisted artifact:
`ok` returns the artifact on disk after the run, `error` is an uncaught
exception (in which case nothing was written). -/
def mainRun (store : List (String × Option Snapshot)) (disk : Option Artifact) :
    Except PyErr (Option Artifact) :=
  let res := resumeArtifact disk
  match processAndWrite (find_new_files res.1 store) res.2 with
  | Except.ok none => Except.ok disk
  | Except.ok (some a) => Except.ok (some a)
  | Except.error e => Except.error e

/-- The artifact visible on disk after a run: a failed run leaves the previous
artifact in place. -/
def diskAfter (store : List (String × Option Snapshot)) (disk : Option Artifact) :
    Option Artifact :=
  match mainRun store disk with
  | Except.ok a => a
  | Except.error _ => disk

/-- Python hashability of a JSON value (lists and dicts are unhashable). -/
def JVal.hashable : JVal → Bool
  | .anil => false
  | .acons _ _ => false
  | .onil => false
  | .ocons _ _ _ => false
  | _ => true

/-- One insertion into a Python dict keyed by JSON values: reassignment keeps
the original position, a fresh key goes to the end. -/
def pyDictInsert (d : List (JVal × JVal)) (kv : JVal × JVal) : List (JVal × JVal) :=
  if d.any (fun p => p.1 == kv.1) then
    d.map (fun p => if p.1 == kv.1 then (p.1, kv.2) else p)
  else d ++ [kv]

/-- The pairs built by `\x7bevent['id']: event for event in data['events']\x7d` on a raw
JSON value: iterating a non-list raises `TypeError`, a non-dict element raises
`TypeError`, a dict element without `'id'` raises `KeyError`, and an unhashable
id raises `TypeError`. -/
def eventPairs : JVal → Except PyErr (List (JVal × JVal))
  | JVal.anil => Except.ok []
  | JVal.acons ev tl => do
    let kv ←
      match ev with
      | JVal.onil => Except.error PyErr.keyError
      | JVal.ocons k v t =>
        match JVal.get (JVal.ocons k v t) "id" with
        | some idv =>
          if idv.hashable then Except.ok (idv, JVal.ocons k v t)
          else Except.error PyErr.typeError
        | none => Except.error PyErr.keyError
      | _ => Except.error PyErr.typeError
    let rest ← eventPairs tl
    Except.ok (kv :: rest)
  | _ => Except.error PyErr.typeError

/-- `get_last_processed_file()` (lines 11–33) on the raw content of the state
file: `none` = file absent, `some none` = `json.load` raises (caught), and
`some (some v)` = the parsed JSON value.  Only `JSONDecodeError` and
`FileNotFoundError` are caught; the `AttributeError`/`TypeError`/`KeyError`
raised on decodable-but-unexpected content escape. -/
def get_last_processed_file (file : Option (Option JVal)) :
    Except PyErr (Option JVal × List (JVal × JVal)) :=
  match file with
  | none => Except.ok (none, [])
  | some none => Except.ok (none, [])
  | some (some data) =>
    if ¬ data.isObj then Except.error PyErr.attributeError
    else
      let last_file := data.get "lastProcessedFile"
      if truthyO last_file && (data.get "events").isSome then
        match data.get "events" with
        | some evs => do
          let pairs ← eventPairs evs
          Except.ok (last_file, pairs.foldl pyDictInsert [])
        | none => Except.ok (none, [])
      else Except.ok (none, [])

/-- `OUTAGES_JSON = os.path.join(PUBLIC_DIR, "outages.json")`. -/
def OUTAGES_JSON : String := "public/outages.json"

/-- Filesystem operations relevant to artifact-write atomicity. -/
inductive FsOp : Type where
  | openTrunc : String → FsOp
  | writeStr : String → String → FsOp
  | rename : String → String → FsOp
deriving DecidableEq, Repr

/-- The file operations `main` performs to persist the artifact (lines 187–188):
`with open(OUTAGES_JSON, "w") as f: json.dump(output_data, f, indent=2)` —
a truncating open of the final path followed by the serialized write. -/
def writeArtifactOps (content : String) : List FsOp :=
  [FsOp.openTrunc OUTAGES_JSON, FsOp.writeStr OUTAGES_JSON content]

/-- Write-to-temporary-then-atomically-replace discipline for `target`: the
target path may only ever be the destination of a rename, never opened for
truncating write nor written directly. -/
def atomicReplaceB (ops : List FsOp) (target : String) : Bool :=
  ops.all (fun op =>
    match op with
    | FsOp.openTrunc p => p ≠ target
    | FsOp.writeStr p _ => p ≠ target
    | FsOp.rename _ _ => true)

/-- Forget the serialize-time `body` field; the fold never reads it. -/
def noBody (e : Event) : Event := { e with body := none }

/-- What one fold step may do to an existing event: every seed field is frozen,
`end` may only go from `none` to `some`, and the detail history only grows. -/
def evolves (e e' : Event) : Prop :=
  e'.id = e.id ∧ e'.title = e.title ∧ e'.start = e.start ∧ e'.allDay = e.allDay ∧
  e'.type = e.type ∧ e'.customers = e.customers ∧ e'.circuit = e.circuit ∧
  e'.body = e.body ∧ (∀ t, e.«end» = some t → e'.«end» = some t) ∧
  ∃ hs, e'.detail_history = e.detail_history ++ hs

/-- List-level evolution: the new event list is the pointwise evolution of the
old one followed by newly created events. -/
def evolvesL (l l' : List Event) : Prop :=
  ∃ l₁ news, l' = l₁ ++ news ∧ List.Forall₂ evolves l l₁

/-- The history-dedup invariant of an event: no two consecutive entries with
equal payloads. -/
def dedupedHistory (e : Event) : Prop :=
  List.Chain' (fun a b : String × JVal => a.2 ≠ b.2) e.detail_history

/-- The fold-state invariant tying `previously_active_ids` to the events: every
open event is listed as previously active. -/
def StInv (st : List Event × List String) : Prop :=
  ∀ e ∈ st.1, e.«end» = none → e.id ∈ st.2

/-- The event record that exists for a fresh id right after its snapshot has
been folded: the creation literal, plus the first history entry when a truthy
detail payload is available. -/
def createdEvent (ts : String) (dm : List (String × JVal)) (oid : String)
    (o : Outage) : Event :=
  { mkNewEvent ts oid o with
    detail_history :=
      match lookupJ dm oid with
      | some d => if d.truthy then [(ts, d)] else []
      | none => [] }

/-! ### Concrete test scenarios (from the spec's §8 testable properties) -/

/-- Entity `A` as a minimal active-outage record. -/
def outageA : Outage :=
  { name := some "A", circuitName := none, customersCurrentlyOff := none, type := none }

/-- `T1 = \x7bA\x7d`. -/
def snapA1 : Snapshot :=
  { timestamp := "2025-01-01T00:00:00Z", active := [outageA], detailedOutageInfo := [] }

/-- `T2 = \x7b\x7d`. -/
def snapEmpty2 : Snapshot :=
  { timestamp := "2025-01-01T01:00:00Z", active := [], detailedOutageInfo := [] }

/-- `T3 = \x7bA\x7d` again. -/
def snapA3 : Snapshot :=
  { timestamp := "2025-01-01T02:00:00Z", active := [outageA], detailedOutageInfo := [] }

/-- The single event the engine derives from `T1=\x7bA\x7d, T2=\x7b\x7d, T3=\x7bA\x7d`. -/
def eventA13 : Event :=
  { id := "A", title := "Unknown (None customers)", start := "2025-01-01T00:00:00Z",
    «end» := some "2025-01-01T01:00:00Z", allDay := false, type := none,
    customers := none, circuit := none, detail_history := [], body := none }

/-- Detail payload `P1`. -/
def payloadStorm : JVal := JVal.ocons "cause" (JVal.str "storm") JVal.onil

/-- Detail payload `P2`. -/
def payloadTree : JVal := JVal.ocons "cause" (JVal.str "tree") JVal.onil

/-- Entity `B` with seed fields. -/
def outageB : Outage :=
  { name := some "B", circuitName := some "C1", customersCurrentlyOff := some 5,
    type := some "unplanned" }

/-- `B` observed with `P1` at `T1`. -/
def snapB1 : Snapshot :=
  { timestamp := "2025-01-01T00:00:00Z", active := [outageB],
    detailedOutageInfo := [("B", payloadStorm)] }

/-- `B` observed with `P1` again at `T2`. -/
def snapB2 : Snapshot :=
  { timestamp := "2025-01-01T01:00:00Z", active := [outageB],
    detailedOutageInfo := [("B", payloadStorm)] }

/-- `B` observed with `P2` at `T3`. -/
def snapB3 : Snapshot :=
  { timestamp := "2025-01-01T02:00:00Z", active := [outageB],
    detailedOutageInfo := [("B", payloadTree)] }

/-- The event derived for `B`: exactly two history entries. -/
def eventB : Event :=
  { id := "B", title := "C1 (5 customers)", start := "2025-01-01T00:00:00Z",
    «end» := none, allDay := false, type := some "unplanned", customers := some 5,
    circuit := some "C1",
    detail_history := [("2025-01-01T00:00:00Z", payloadStorm),
                       ("2025-01-01T02:00:00Z", payloadTree)],
    body := none }

/-- A record whose `'name'` key is absent. -/
def outageNoName : Outage :=
  { name := none, circuitName := some "C2", customersCurrentlyOff := some 3,
    type := some "unplanned" }

/-- A snapshot containing a record without `'name'`. -/
def snapNoName : Snapshot :=
  { timestamp := "2025-01-01T03:00:00Z", active := [outageNoName],
    detailedOutageInfo := [] }

/-- A store whose only remaining file sorts before the recorded checkpoint. -/
def storeC7 : List (String × Option Snapshot) :=
  [("data/history/2025/a.json", some snapEmpty2)]

/-- A prior artifact whose checkpoint file is no longer in the store. -/
def artC7 : Artifact :=
  { lastProcessedFile := "data/history/2025/b.json", events := [] }

/-! ### Lemma layer -/

theorem noBody_id (e : Event) : (noBody e).id = e.id := rfl

theorem noBody_mkNewEvent (ts oid : String) (o : Outage) :
    noBody (mkNewEvent ts oid o) = mkNewEvent ts oid o := rfl

theorem findEvent_map_noBody (evs : List Event) (oid : String) :
    findEvent (evs.map noBody) oid = (findEvent evs oid).map noBody := by
  unfold findEvent
  rw [List.find?_map]
  rfl

theorem updHist_noBody (oid ts : String) (d : JVal) (e : Event) :
    updHist oid ts d (noBody e) = noBody (updHist oid ts d e) := by
  unfold updHist noBody
  by_cases h : e.id == oid <;> simp [h]

theorem closeIfFinished_noBody (ts : String) (prev cur : List String) (e : Event) :
    closeIfFinished ts prev cur (noBody e) = noBody (closeIfFinished ts prev cur e) := by
  unfold closeIfFinished noBody
  by_cases h : e.id ∈ prev ∧ e.id ∉ cur ∧ e.«end» = none <;> simp [h]

theorem map_updHist_noBody (oid ts : String) (d : JVal) (l : List Event) :
    (l.map noBody).map (updHist oid ts d) = (l.map (updHist oid ts d)).map noBody := by
  simp only [List.map_map]
  apply List.map_congr_left
  intro e _
  simpa [Function.comp] using updHist_noBody oid ts d e

theorem stepOutage_noBody (ts : String) (dm : List (String × JVal)) (o : Outage)
    (evs : List Event) :
    stepOutage ts dm (evs.map noBody) o = (stepOutage ts dm evs o).map noBody := by
  unfold stepOutage
  cases hn : o.name with
  | none => rfl
  | some oid =>
    by_cases he : oid = ""
    · simp [he]
    · simp only [he, if_false, findEvent_map_noBody]
      have happ : evs.map noBody ++ [mkNewEvent ts oid o] =
          (evs ++ [mkNewEvent ts oid o]).map noBody := by
        simp [noBody_mkNewEvent]
      cases hf : findEvent evs oid with
      | some e0 =>
        simp only [Option.map_some', Option.isSome_some, if_true]
        cases hd : lookupJ dm oid with
        | none => rfl
        | some d =>
          by_cases ht : d.truthy
          · simp only [ht, if_true, map_updHist_noBody]
          · simp [ht]
      | none =>
        simp only [Option.map_none', Option.isSome_none, Bool.false_eq_true, if_false, happ]
        cases hd : lookupJ dm oid with
        | none => rfl
        | some d =>
          by_cases ht : d.truthy
          · simp only [ht, if_true, map_updHist_noBody]
          · simp [ht]

theorem foldl_stepOutage_noBody (ts : String) (dm : List (String × JVal))
    (l : List Outage) (evs : List Event) :
    l.foldl (stepOutage ts dm) (evs.map noBody) =
      (l.foldl (stepOutage ts dm) evs).map noBody := by
  induction l generalizing evs with
  | nil => rfl
  | cons o rest ih => simp only [List.foldl_cons, stepOutage_noBody, ih]

theorem finishStep_noBody (ts : String) (prev cur : List String) (evs : List Event) :
    finishStep ts prev cur (evs.map noBody) = (finishStep ts prev cur evs).map noBody := by
  unfold finishStep
  rw [List.map_map, List.map_map]
  apply List.map_congr_left
  intro e _
  simpa [Function.comp] using closeIfFinished_noBody ts prev cur e

theorem processSnapshot_noBody (st : List Event × List String) (f : Option Snapshot) :
    processSnapshot (st.1.map noBody, st.2) f =
      (processSnapshot st f).map (fun st' => (st'.1.map noBody, st'.2)) := by
  cases f with
  | none => rfl
  | some data =>
    simp only [processSnapshot]
    cases hc : currentActiveIds data.active with
    | error e => rfl
    | ok cur =>
      show (Except.ok cur >>= fun _ => _ : Except PyErr _) = _
      simp only [foldl_stepOutage_noBody, finishStep_noBody]
      rfl

theorem processFilesSt_noBody (files : List (Option Snapshot))
    (st : List Event × List String) :
    processFilesSt files (st.1.map noBody, st.2) =
      (processFilesSt files st).map (fun st' => (st'.1.map noBody, st'.2)) := by
  induction files generalizing st with
  | nil => rfl
  | cons f rest ih =>
    simp only [processFilesSt, List.foldlM_cons] at *
    rw [processSnapshot_noBody]
    cases h : processSnapshot st f with
    | error e => rfl
    | ok st1 => simpa using ih st1

theorem bind_error {α β : Type} (e : PyErr) (f : α → Except PyErr β) :
    ((Except.error e : Except PyErr α) >>= f) = Except.error e := rfl

theorem bind_ok {α β : Type} (a : α) (f : α → Except PyErr β) :
    ((Except.ok a : Except PyErr α) >>= f) = f a := rfl

theorem pure_eq_ok {α : Type} (a : α) : (pure a : Except PyErr α) = Except.ok a := rfl

theorem findEvent_eq_none_iff (evs : List Event) (oid : String) :
    findEvent evs oid = none ↔ oid ∉ evs.map (·.id) := by
  unfold findEvent
  rw [List.find?_eq_none]
  constructor
  · intro h hm
    obtain ⟨e, he, hid⟩ := List.mem_map.mp hm
    exact h e he (by simp [hid])
  · intro h e he hid
    exact h (List.mem_map.mpr ⟨e, he, by simpa using hid⟩)

theorem updHist_id (oid ts : String) (d : JVal) (e : Event) :
    (updHist oid ts d e).id = e.id := by
  unfold updHist; split <;> rfl

theorem closeIfFinished_id (ts : String) (prev cur : List String) (e : Event) :
    (closeIfFinished ts prev cur e).id = e.id := by
  unfold closeIfFinished; split <;> rfl

theorem map_ids_of_id_preserving (f : Event → Event) (hf : ∀ e, (f e).id = e.id)
    (l : List Event) : (l.map f).map (·.id) = l.map (·.id) := by
  rw [List.map_map]
  apply List.map_congr_left
  intro e _
  simp [Function.comp, hf]

theorem stepOutage_ids (ts : String) (dm : List (String × JVal)) (o : Outage)
    (evs : List Event) :
    ((stepOutage ts dm evs o).map (·.id) = evs.map (·.id)) ∨
    (∃ oid, o.name = some oid ∧ oid ∉ evs.map (·.id) ∧
      (stepOutage ts dm evs o).map (·.id) = evs.map (·.id) ++ [oid]) := by
  unfold stepOutage
  cases hn : o.name with
  | none => left; rfl
  | some oid =>
    by_cases he : oid = ""
    · left; simp [he]
    · simp only [he, if_false]
      cases hf : findEvent evs oid with
      | some e0 =>
        simp only [Option.isSome_some, if_true]
        cases lookupJ dm oid with
        | none => left; rfl
        | some d =>
          by_cases ht : d.truthy
          · left; simp only [ht, if_true]
            exact map_ids_of_id_preserving _ (updHist_id oid ts d) evs
          · left; simp [ht]
      | none =>
        simp only [Option.isSome_none, Bool.false_eq_true, if_false]
        have hmem : oid ∉ evs.map (·.id) := (findEvent_eq_none_iff evs oid).mp hf
        have hids : (evs ++ [mkNewEvent ts oid o]).map (·.id) = evs.map (·.id) ++ [oid] := by
          simp [mkNewEvent]
        cases lookupJ dm oid with
        | none => right; exact ⟨oid, rfl, hmem, hids⟩
        | some d =>
          by_cases ht : d.truthy
          · right
            refine ⟨oid, rfl, hmem, ?_⟩
            simp only [ht, if_true]
            rw [map_ids_of_id_preserving _ (updHist_id oid ts d), hids]
          · right; simp only [ht, if_false]; exact ⟨oid, rfl, hmem, hids⟩

theorem stepOutage_nodup (ts : String) (dm : List (String × JVal)) (o : Outage)
    (evs : List Event) (h : (evs.map (·.id)).Nodup) :
    ((stepOutage ts dm evs o).map (·.id)).Nodup := by
  rcases stepOutage_ids ts dm o evs with heq | ⟨oid, _, hmem, heq⟩
  · rwa [heq]
  · rw [heq]
    simp only [List.nodup_append, List.nodup_cons, List.nodup_nil]
    refine ⟨h, by simp, ?_⟩
    intro a ha hb
    simp only [List.mem_singleton] at hb
    exact hmem (hb ▸ ha)

theorem foldl_stepOutage_nodup (ts : String) (dm : List (String × JVal))
    (l : List Outage) (evs : List Event) (h : (evs.map (·.id)).Nodup) :
    ((l.foldl (stepOutage ts dm) evs).map (·.id)).Nodup := by
  induction l generalizing evs with
  | nil => exact h
  | cons o rest ih => exact ih _ (stepOutage_nodup ts dm o evs h)

theorem finishStep_ids (ts : String) (prev cur : List String) (evs : List Event) :
    ((finishStep ts prev cur evs).map (·.id)) = evs.map (·.id) :=
  map_ids_of_id_preserving _ (closeIfFinished_id ts prev cur) evs

theorem processSnapshot_nodup (st : List Event × List String) (f : Option Snapshot)
    (st' : List Event × List String) (h : (st.1.map (·.id)).Nodup)
    (hok : processSnapshot st f = Except.ok st') :
    (st'.1.map (·.id)).Nodup := by
  cases f with
  | none => exact absurd hok (by simp [processSnapshot])
  | some data =>
    simp only [processSnapshot] at hok
    cases hc : currentActiveIds data.active with
    | error e => rw [hc, bind_error] at hok; exact Except.noConfusion hok
    | ok cur =>
      rw [hc, bind_ok] at hok
      injection hok with heq
      rw [← heq]
      simp only [finishStep_ids]
      exact foldl_stepOutage_nodup _ _ _ _ h

theorem processFilesSt_nodup (files : List (Option Snapshot))
    (st st' : List Event × List String) (h : (st.1.map (·.id)).Nodup)
    (hok : processFilesSt files st = Except.ok st') :
    (st'.1.map (·.id)).Nodup := by
  induction files generalizing st with
  | nil =>
    simp only [processFilesSt, List.foldlM_nil, pure_eq_ok] at hok
    cases hok; exact h
  | cons f rest ih =>
    simp only [processFilesSt, List.foldlM_cons] at hok
    cases hstep : processSnapshot st f with
    | error e => rw [hstep, bind_error] at hok; exact Except.noConfusion hok
    | ok st1 =>
      rw [hstep, bind_ok] at hok
      exact ih st1 (processSnapshot_nodup st f st1 h hstep) hok

theorem evolves_refl (e : Event) : evolves e e :=
  ⟨rfl, rfl, rfl, rfl, rfl, rfl, rfl, rfl, fun _ ht => ht, [], by simp⟩

theorem evolves_trans {a b c : Event} (hab : evolves a b) (hbc : evolves b c) :
    evolves a c := by
  obtain ⟨h1, h2, h3, h4, h5, h6, h7, h8, h9, hs1, hh1⟩ := hab
  obtain ⟨g1, g2, g3, g4, g5, g6, g7, g8, g9, hs2, hh2⟩ := hbc
  refine ⟨g1.trans h1, g2.trans h2, g3.trans h3, g4.trans h4, g5.trans h5,
    g6.trans h6, g7.trans h7, g8.trans h8, fun t ht => g9 t (h9 t ht),
    hs1 ++ hs2, ?_⟩
  rw [hh2, hh1, List.append_assoc]

theorem appendIfChanged_suffix (h : List (String × JVal)) (ts : String) (d : JVal) :
    ∃ hs, appendIfChanged h ts d = h ++ hs := by
  unfold appendIfChanged
  split
  · exact ⟨[], by simp⟩
  · exact ⟨[(ts, d)], rfl⟩

theorem evolves_updHist (oid ts : String) (d : JVal) (e : Event) :
    evolves e (updHist oid ts d e) := by
  unfold updHist
  split
  · obtain ⟨hs, hh⟩ := appendIfChanged_suffix e.detail_history ts d
    exact ⟨rfl, rfl, rfl, rfl, rfl, rfl, rfl, rfl, fun _ ht => ht, hs, hh⟩
  · exact evolves_refl e

theorem evolves_closeIfFinished (ts : String) (prev cur : List String) (e : Event) :
    evolves e (closeIfFinished ts prev cur e) := by
  unfold closeIfFinished
  split
  · rename_i hcond
    refine ⟨rfl, rfl, rfl, rfl, rfl, rfl, rfl, rfl, ?_, [], by simp⟩
    intro t ht
    rw [hcond.2.2] at ht
    exact Option.noConfusion ht
  · exact evolves_refl e

theorem forall₂_evolves_map (f : Event → Event) (hf : ∀ e, evolves e (f e)) :
    ∀ l : List Event, List.Forall₂ evolves l (l.map f)
  | [] => List.Forall₂.nil
  | e :: rest => List.Forall₂.cons (hf e) (forall₂_evolves_map f hf rest)

theorem forall₂_evolves_refl : ∀ l : List Event, List.Forall₂ evolves l l
  | [] => List.Forall₂.nil
  | e :: rest => List.Forall₂.cons (evolves_refl e) (forall₂_evolves_refl rest)

theorem evolvesL_refl (l : List Event) : evolvesL l l :=
  ⟨l, [], by simp, forall₂_evolves_refl l⟩

theorem evolvesL_map (f : Event → Event) (hf : ∀ e, evolves e (f e)) (l : List Event) :
    evolvesL l (l.map f) :=
  ⟨l.map f, [], by simp, forall₂_evolves_map f hf l⟩

theorem forall₂_append_split {R : Event → Event → Prop} :
    ∀ {x y z : List Event}, List.Forall₂ R (x ++ y) z →
      ∃ z₁ z₂, z = z₁ ++ z₂ ∧ List.Forall₂ R x z₁ ∧ List.Forall₂ R y z₂ := by
  intro x
  induction x with
  | nil => intro y z h; exact ⟨[], z, by simp, List.Forall₂.nil, by simpa using h⟩
  | cons a rest ih =>
    intro y z h
    cases h with
    | cons hab htail =>
      rename_i b z'
      obtain ⟨z₁, z₂, hz, h₁, h₂⟩ := ih htail
      exact ⟨b :: z₁, z₂, by simp [hz], List.Forall₂.cons hab h₁, h₂⟩

theorem forall₂_evolves_comp :
    ∀ {a b c : List Event}, List.Forall₂ evolves a b → List.Forall₂ evolves b c →
      List.Forall₂ evolves a c := by
  intro a
  induction a with
  | nil => intro b c hab hbc; cases hab; cases hbc; exact List.Forall₂.nil
  | cons x rest ih =>
    intro b c hab hbc
    cases hab with
    | cons hxy htail =>
      cases hbc with
      | cons hyz htail2 => exact List.Forall₂.cons (evolves_trans hxy hyz) (ih htail htail2)

theorem evolvesL_trans {a b c : List Event} (hab : evolvesL a b) (hbc : evolvesL b c) :
    evolvesL a c := by
  obtain ⟨l₁, n₁, hb, f₁⟩ := hab
  obtain ⟨l₂, n₂, hc, f₂⟩ := hbc
  rw [hb] at f₂
  obtain ⟨z₁, z₂, hz, g₁, _⟩ := forall₂_append_split f₂
  exact ⟨z₁, z₂ ++ n₂, by rw [hc, hz, List.append_assoc], forall₂_evolves_comp f₁ g₁⟩

theorem stepOutage_evolvesL (ts : String) (dm : List (String × JVal)) (o : Outage)
    (evs : List Event) : evolvesL evs (stepOutage ts dm evs o) := by
  unfold stepOutage
  cases o.name with
  | none => exact evolvesL_refl evs
  | some oid =>
    by_cases he : oid = ""
    · simp only [he, if_true]; exact evolvesL_refl evs
    · simp only [he, if_false]
      cases findEvent evs oid with
      | some e0 =>
        simp only [Option.isSome_some, if_true]
        cases lookupJ dm oid with
        | none => exact evolvesL_refl evs
        | some d =>
          by_cases ht : d.truthy
          · simp only [ht, if_true]
            exact evolvesL_map _ (evolves_updHist oid ts d) evs
          · simp only [ht, if_false]; exact evolvesL_refl evs
      | none =>
        simp only [Option.isSome_none, Bool.false_eq_true, if_false]
        cases lookupJ dm oid with
        | none => exact ⟨evs, [mkNewEvent ts oid o], rfl, forall₂_evolves_refl evs⟩
        | some d =>
          by_cases ht : d.truthy
          · simp only [ht, if_true, List.map_append]
            exact ⟨evs.map (updHist oid ts d), [mkNewEvent ts oid o].map (updHist oid ts d),
              rfl, forall₂_evolves_map _ (evolves_updHist oid ts d) evs⟩
          · simp only [ht, if_false]
            exact ⟨evs, [mkNewEvent ts oid o], rfl, forall₂_evolves_refl evs⟩

theorem foldl_stepOutage_evolvesL (ts : String) (dm : List (String × JVal))
    (l : List Outage) (evs : List Event) :
    evolvesL evs (l.foldl (stepOutage ts dm) evs) := by
  induction l generalizing evs with
  | nil => exact evolvesL_refl evs
  | cons o rest ih =>
    exact evolvesL_trans (stepOutage_evolvesL ts dm o evs) (ih _)

theorem finishStep_evolvesL (ts : String) (prev cur : List String) (evs : List Event) :
    evolvesL evs (finishStep ts prev cur evs) :=
  evolvesL_map _ (evolves_closeIfFinished ts prev cur) evs

theorem processSnapshot_evolvesL (st st' : List Event × List String)
    (f : Option Snapshot) (hok : processSnapshot st f = Except.ok st') :
    evolvesL st.1 st'.1 := by
  cases f with
  | none => exact Except.noConfusion hok
  | some data =>
    simp only [processSnapshot] at hok
    cases hc : currentActiveIds data.active with
    | error e => rw [hc, bind_error] at hok; exact Except.noConfusion hok
    | ok cur =>
      rw [hc, bind_ok] at hok
      injection hok with heq
      rw [← heq]
      exact evolvesL_trans (foldl_stepOutage_evolvesL _ _ _ _) (finishStep_evolvesL _ _ _ _)

theorem processFilesSt_evolvesL (files : List (Option Snapshot))
    (st st' : List Event × List String) (hok : processFilesSt files st = Except.ok st') :
    evolvesL st.1 st'.1 := by
  induction files generalizing st with
  | nil =>
    simp only [processFilesSt, List.foldlM_nil, pure_eq_ok] at hok
    cases hok; exact evolvesL_refl _
  | cons f rest ih =>
    simp only [processFilesSt, List.foldlM_cons] at hok
    cases hstep : processSnapshot st f with
    | error e => rw [hstep, bind_error] at hok; exact Except.noConfusion hok
    | ok st1 =>
      rw [hstep, bind_ok] at hok
      exact evolvesL_trans (processSnapshot_evolvesL st st1 f hstep) (ih st1 hok)

theorem forall₂_mem_left {R : Event → Event → Prop} :
    ∀ {l l₁ : List Event}, List.Forall₂ R l l₁ → ∀ {e}, e ∈ l → ∃ e' ∈ l₁, R e e' := by
  intro l
  induction l with
  | nil => intro l₁ h e he; cases he
  | cons a rest ih =>
    intro l₁ h e he
    cases h with
    | cons hab htail =>
      rename_i b l₂
      rcases List.mem_cons.mp he with rfl | hrest
      · exact ⟨b, List.mem_cons_self b l₂, hab⟩
      · obtain ⟨e', he', hr⟩ := ih htail hrest
        exact ⟨e', List.mem_cons_of_mem b he', hr⟩

theorem evolvesL_mem {l l' : List Event} (h : evolvesL l l') {e : Event} (he : e ∈ l) :
    ∃ e' ∈ l', evolves e e' := by
  obtain ⟨l₁, news, rfl, f⟩ := h
  obtain ⟨e', he', hr⟩ := forall₂_mem_left f he
  exact ⟨e', List.mem_append_left news he', hr⟩

theorem appendIfChanged_chain {h : List (String × JVal)} {ts : String} {d : JVal}
    (hc : List.Chain' (fun a b : String × JVal => a.2 ≠ b.2) h) :
    List.Chain' (fun a b : String × JVal => a.2 ≠ b.2) (appendIfChanged h ts d) := by
  unfold appendIfChanged
  split
  · exact hc
  · rename_i hne
    rw [List.chain'_append]
    refine ⟨hc, List.chain'_singleton _, ?_⟩
    intro x hx y hy
    have hy' : y = (ts, d) := by
      have := hy
      simp only [List.head?_cons, Option.mem_def, Option.some.injEq] at this
      exact this.symm
    have hx' : h.getLast? = some x := hx
    intro hxy
    apply hne
    rw [hx', Option.map_some', hxy, hy']

theorem mkNewEvent_dedup (ts oid : String) (o : Outage) :
    dedupedHistory (mkNewEvent ts oid o) := by
  simp [dedupedHistory, mkNewEvent]

theorem updHist_dedup (oid ts : String) (d : JVal) (e : Event)
    (h : dedupedHistory e) : dedupedHistory (updHist oid ts d e) := by
  unfold updHist
  split
  · exact appendIfChanged_chain h
  · exact h

theorem closeIfFinished_dedup (ts : String) (prev cur : List String) (e : Event)
    (h : dedupedHistory e) : dedupedHistory (closeIfFinished ts prev cur e) := by
  unfold closeIfFinished
  split
  · exact h
  · exact h

theorem stepOutage_dedupAll (ts : String) (dm : List (String × JVal)) (o : Outage)
    (evs : List Event) (h : ∀ e ∈ evs, dedupedHistory e) :
    ∀ e ∈ stepOutage ts dm evs o, dedupedHistory e := by
  unfold stepOutage
  cases o.name with
  | none => exact h
  | some oid =>
    by_cases he : oid = ""
    · simpa [he] using h
    · simp only [he, if_false]
      have happ : ∀ e ∈ evs ++ [mkNewEvent ts oid o], dedupedHistory e := by
        intro e hme
        rcases List.mem_append.mp hme with hin | hin
        · exact h e hin
        · rw [List.mem_singleton.mp hin]; exact mkNewEvent_dedup ts oid o
      cases findEvent evs oid with
      | some e0 =>
        simp only [Option.isSome_some, if_true]
        cases lookupJ dm oid with
        | none => exact h
        | some d =>
          by_cases ht : d.truthy
          · simp only [ht, if_true]
            intro e hme
            obtain ⟨e₀, he₀, rfl⟩ := List.mem_map.mp hme
            exact updHist_dedup oid ts d e₀ (h e₀ he₀)
          · simp only [ht, if_false]; exact h
      | none =>
        simp only [Option.isSome_none, Bool.false_eq_true, if_false]
        cases lookupJ dm oid with
        | none => exact happ
        | some d =>
          by_cases ht : d.truthy
          · simp only [ht, if_true]
            intro e hme
            obtain ⟨e₀, he₀, rfl⟩ := List.mem_map.mp hme
            exact updHist_dedup oid ts d e₀ (happ e₀ he₀)
          · simp only [ht, if_false]; exact happ

theorem foldl_stepOutage_dedupAll (ts : String) (dm : List (String × JVal))
    (l : List Outage) (evs : List Event) (h : ∀ e ∈ evs, dedupedHistory e) :
    ∀ e ∈ l.foldl (stepOutage ts dm) evs, dedupedHistory e := by
  induction l generalizing evs with
  | nil => exact h
  | cons o rest ih => exact ih _ (stepOutage_dedupAll ts dm o evs h)

theorem finishStep_dedupAll (ts : String) (prev cur : List String) (evs : List Event)
    (h : ∀ e ∈ evs, dedupedHistory e) :
    ∀ e ∈ finishStep ts prev cur evs, dedupedHistory e := by
  intro e hme
  obtain ⟨e₀, he₀, rfl⟩ := List.mem_map.mp hme
  exact closeIfFinished_dedup ts prev cur e₀ (h e₀ he₀)

theorem processSnapshot_dedupAll (st st' : List Event × List String)
    (f : Option Snapshot) (h : ∀ e ∈ st.1, dedupedHistory e)
    (hok : processSnapshot st f = Except.ok st') :
    ∀ e ∈ st'.1, dedupedHistory e := by
  cases f with
  | none => exact Except.noConfusion hok
  | some data =>
    simp only [processSnapshot] at hok
    cases hc : currentActiveIds data.active with
    | error e => rw [hc, bind_error] at hok; exact Except.noConfusion hok
    | ok cur =>
      rw [hc, bind_ok] at hok
      injection hok with heq
      rw [← heq]
      exact finishStep_dedupAll _ _ _ _ (foldl_stepOutage_dedupAll _ _ _ _ h)

theorem processFilesSt_dedupAll (files : List (Option Snapshot))
    (st st' : List Event × List String) (h : ∀ e ∈ st.1, dedupedHistory e)
    (hok : processFilesSt files st = Except.ok st') :
    ∀ e ∈ st'.1, dedupedHistory e := by
  induction files generalizing st with
  | nil =>
    simp only [processFilesSt, List.foldlM_nil, pure_eq_ok] at hok
    cases hok; exact h
  | cons f rest ih =>
    simp only [processFilesSt, List.foldlM_cons] at hok
    cases hstep : processSnapshot st f with
    | error e => rw [hstep, bind_error] at hok; exact Except.noConfusion hok
    | ok st1 =>
      rw [hstep, bind_ok] at hok
      exact ih st1 (processSnapshot_dedupAll st st1 f h hstep) hok

theorem process_files_eq (files : List (Option Snapshot)) (existing : List Event) :
    process_files files existing =
      (processFilesSt files (existing, existing.map (·.id))).map (·.1) := by
  unfold process_files
  cases processFilesSt files (existing, existing.map (·.id)) <;> rfl

theorem currentActiveIds_error_of_mem :
    ∀ {outs : List Outage}, (∃ o ∈ outs, o.name = none) →
      currentActiveIds outs = Except.error PyErr.keyError := by
  intro outs
  induction outs with
  | nil => rintro ⟨o, ho, _⟩; cases ho
  | cons a rest ih =>
    rintro ⟨o, ho, hn⟩
    unfold currentActiveIds
    cases ha : a.name with
    | none => rfl
    | some n =>
      rcases List.mem_cons.mp ho with rfl | hrest
      · rw [ha] at hn; cases hn
      · rw [ih ⟨o, hrest, hn⟩]
        rfl

theorem processSnapshot_keyError (s : Snapshot)
    (h : currentActiveIds s.active = Except.error PyErr.keyError)
    (st : List Event × List String) :
    processSnapshot st (some s) = Except.error PyErr.keyError := by
  simp only [processSnapshot]
  rw [h, bind_error]

theorem processFilesSt_error_of_mem {f : Option Snapshot} {files : List (Option Snapshot)}
    (hmem : f ∈ files) (herr : ∀ st, ∃ e, processSnapshot st f = Except.error e) :
    ∀ st, ∃ e, processFilesSt files st = Except.error e := by
  induction files with
  | nil => cases hmem
  | cons g rest ih =>
    intro st
    rcases List.mem_cons.mp hmem with rfl | hrest
    · obtain ⟨e, he⟩ := herr st
      exact ⟨e, by simp only [processFilesSt, List.foldlM_cons]; rw [he, bind_error]⟩
    · cases hg : processSnapshot st g with
      | error e =>
        exact ⟨e, by simp only [processFilesSt, List.foldlM_cons]; rw [hg, bind_error]⟩
      | ok st1 =>
        obtain ⟨e, he⟩ := ih hrest st1
        refine ⟨e, ?_⟩
        simp only [processFilesSt, List.foldlM_cons]
        rw [hg, bind_ok]
        exact he

theorem mainRun_eq (store : List (String × Option Snapshot)) (disk : Option Artifact) :
    mainRun store disk =
      match processAndWrite (find_new_files (resumeArtifact disk).1 store)
          (resumeArtifact disk).2 with
      | Except.ok none => Except.ok disk
      | Except.ok (some a) => Except.ok (some a)
      | Except.error e => Except.error e := rfl

theorem processAndWrite_getLast_some {nf : List (String × Option Snapshot)}
    {existing : List Event} {lastF : String × Option Snapshot}
    (hl : nf.getLast? = some lastF) :
    processAndWrite nf existing = (do
      let events ← process_files (nf.map (·.2)) existing
      let events2 ← serializeEvents events
      Except.ok (some { lastProcessedFile := normSlash lastF.1, events := events2 })) := by
  unfold processAndWrite
  rw [hl]

theorem process_files_error_of_mem {f : Option Snapshot} {files : List (Option Snapshot)}
    (hmem : f ∈ files) (herr : ∀ st, ∃ e, processSnapshot st f = Except.error e)
    (prior : List Event) : ∃ e, process_files files prior = Except.error e := by
  obtain ⟨e, he⟩ := processFilesSt_error_of_mem hmem herr (prior, prior.map (·.id))
  exact ⟨e, by rw [process_files_eq, he]; rfl⟩

/-! ### Claim theorems -/

/-- C3: No-reopen lifecycle: an event is created at most once per id (unique
ids are preserved), and `start` and a non-null `end` are never modified by any
later snapshot; concretely, folding `T1=\x7bA\x7d, T2=\x7b\x7d, T3=\x7bA\x7d` in one run from the
empty prior state yields exactly one event for `A` with `start=T1`, `end=T2`,
and `A`'s reappearance at `T3` does not reopen it or create a second event. -/
theorem no_reopen_lifecycle :
    (∀ (files : List (Option Snapshot)) (prior out : List Event),
      process_files files prior = Except.ok out →
      ((prior.map (·.id)).Nodup → (out.map (·.id)).Nodup) ∧
      ∀ e ∈ prior, ∃ e' ∈ out, e'.id = e.id ∧ e'.start = e.start ∧
        ∀ t, e.«end» = some t → e'.«end» = some t) ∧
    process_files [some snapA1, some snapEmpty2, some snapA3] [] =
      Except.ok [eventA13] := by
  constructor
  · intro files prior out hok
    rw [process_files_eq] at hok
    cases hst : processFilesSt files (prior, prior.map (·.id)) with
    | error e => rw [hst] at hok; exact Except.noConfusion hok
    | ok st' =>
      rw [hst] at hok
      simp only [Except.map] at hok
      injection hok with hout
      constructor
      · intro hnd; rw [← hout]; exact processFilesSt_nodup files _ st' hnd hst
      · intro e he
        have hev := processFilesSt_evolvesL files _ st' hst
        obtain ⟨e', he', hr⟩ := evolvesL_mem hev he
        obtain ⟨hid, _, hstart, _, _, _, _, _, hendp, _⟩ := hr
        exact ⟨e', hout ▸ he', hid, hstart, hendp⟩
  · rfl

theorem no_reopen_lifecycle_witness :
    (([eventA13].map (·.id)).Nodup → (([eventA13] : List Event).map (·.id)).Nodup) ∧
    ∀ e ∈ [eventA13], ∃ e' ∈ [eventA13], e'.id = e.id ∧ e'.start = e.start ∧
      ∀ t, e.«end» = some t → e'.«end» = some t :=
  no_reopen_lifecycle.1 [some snapA3] [eventA13] [eventA13] rfl

/-- C4: History dedup-on-equality: after any fold from a prior state whose
histories are deduplicated, every event's history has no two consecutive
structurally equal payloads; concretely, payload `P1` at `T1`, `P1` at `T2`
and `P2` at `T3` produce exactly the two entries `(T1,P1)` and `(T3,P2)`. -/
theorem history_dedup :
    (∀ (files : List (Option Snapshot)) (prior out : List Event),
      (∀ e ∈ prior, dedupedHistory e) →
      process_files files prior = Except.ok out →
      ∀ e ∈ out, dedupedHistory e) ∧
    process_files [some snapB1, some snapB2, some snapB3] [] = Except.ok [eventB] ∧
    eventB.detail_history = [("2025-01-01T00:00:00Z", payloadStorm),
                             ("2025-01-01T02:00:00Z", payloadTree)] := by
  refine ⟨?_, rfl, rfl⟩
  intro files prior out hprior hok
  rw [process_files_eq] at hok
  cases hst : processFilesSt files (prior, prior.map (·.id)) with
  | error e => rw [hst] at hok; exact Except.noConfusion hok
  | ok st' =>
    rw [hst] at hok
    simp only [Except.map] at hok
    injection hok with hout
    rw [← hout]
    exact processFilesSt_dedupAll files _ st' hprior hst

theorem history_dedup_witness : ∀ e ∈ [eventB], dedupedHistory e :=
  history_dedup.1 [some snapB1, some snapB2, some snapB3] [] [eventB]
    (fun e he => absurd he (List.not_mem_nil e)) rfl

/-- C10: a record lacking the `'name'` key makes the fold fail with a
`KeyError` while computing the current active-id set, aborting the whole run,
whereas a record whose `'name'` is present but empty is silently skipped by the
per-outage step. -/
theorem missing_name_fatal :
    (∀ s : Snapshot, (∃ o ∈ s.active, o.name = none) →
      currentActiveIds s.active = Except.error PyErr.keyError ∧
      (∀ st, processSnapshot st (some s) = Except.error PyErr.keyError) ∧
      ∀ (files : List (Option Snapshot)) (prior : List Event), some s ∈ files →
        ∃ e, process_files files prior = Except.error e) ∧
    (∀ (ts : String) (dm : List (String × JVal)) (evs : List Event)
      (cn : Option String) (cu : Option Int) (ty : Option String),
      stepOutage ts dm evs
        { name := some "", circuitName := cn, customersCurrentlyOff := cu,
          type := ty } = evs) := by
  constructor
  · intro s hs
    have hcur := currentActiveIds_error_of_mem hs
    refine ⟨hcur, processSnapshot_keyError s hcur, ?_⟩
    intro files prior hmem
    exact process_files_error_of_mem hmem
      (fun st => ⟨PyErr.keyError, processSnapshot_keyError s hcur st⟩) prior
  · intro ts dm evs cn cu ty
    simp [stepOutage]

theorem missing_name_fatal_witness :
    processSnapshot ([], []) (some snapNoName) = Except.error PyErr.keyError :=
  ((missing_name_fatal.1 snapNoName ⟨outageNoName, by simp [snapNoName], rfl⟩).2.1 ([], []))

/-- C2: Fatal-on-corruption: when any file of the unprocessed range fails to
parse, the whole run raises before anything is written, so the previously
persisted artifact is left unchanged and no partial fold is committed. -/
theorem fatal_on_malformed_snapshot :
    ∀ (store : List (String × Option Snapshot)) (disk : Option Artifact)
      (pre post : List (String × Option Snapshot)) (p : String),
      find_new_files (resumeArtifact disk).1 store = pre ++ (p, none) :: post →
      (∃ e, mainRun store disk = Except.error e) ∧ diskAfter store disk = disk := by
  intro store disk pre post p hfind
  have hnone : (none : Option Snapshot) ∈
      (find_new_files (resumeArtifact disk).1 store).map (·.2) := by
    rw [hfind]
    simp only [List.map_append, List.map_cons]
    exact List.mem_append_right _ (List.mem_cons_self _ _)
  have herr : ∀ st, ∃ e, processSnapshot st (none : Option Snapshot) = Except.error e :=
    fun _ => ⟨PyErr.jsonDecodeError, rfl⟩
  obtain ⟨e, he⟩ := process_files_error_of_mem hnone herr (resumeArtifact disk).2
  have hne : find_new_files (resumeArtifact disk).1 store ≠ [] := by
    rw [hfind]; simp
  have hsome : (find_new_files (resumeArtifact disk).1 store).getLast?.isSome :=
    List.getLast?_isSome.mpr hne
  cases hlast : (find_new_files (resumeArtifact disk).1 store).getLast? with
  | none => rw [hlast] at hsome; cases hsome
  | some lastF =>
    have hpw : processAndWrite (find_new_files (resumeArtifact disk).1 store)
        (resumeArtifact disk).2 = Except.error e := by
      rw [processAndWrite_getLast_some hlast, he, bind_error]
    have hmain : mainRun store disk = Except.error e := by
      rw [mainRun_eq, hpw]
    exact ⟨⟨e, hmain⟩, by unfold diskAfter; rw [hmain]⟩

theorem fatal_on_malformed_snapshot_witness :
    (∃ e, mainRun [("data/history/bad.json", none)] none = Except.error e) ∧
    diskAfter [("data/history/bad.json", none)] none = none :=
  fatal_on_malformed_snapshot [("data/history/bad.json", none)] none [] []
    "data/history/bad.json" rfl

/-- C8: the artifact is not written via temporary-file-plus-atomic-rename: the
code opens the final output path directly in truncating write mode, so a
process failure mid-write can leave a torn artifact. -/
theorem artifact_write_not_atomic :
    atomicReplaceB (writeArtifactOps "x") OUTAGES_JSON = false ∧
    writeArtifactOps "x" =
      [FsOp.openTrunc OUTAGES_JSON, FsOp.writeStr OUTAGES_JSON "x"] :=
  ⟨rfl, rfl⟩

/-- C9: the timestamp normalization (keep the first 10 characters, replace `-`
with `:` in the remainder) is idempotent on every string, and is a no-op on
every string with no hyphen after position 10 (in particular on valid
ISO-8601 timestamps). -/
theorem normTs_idempotent_noop :
    (∀ s : String, normTs (normTs s) = normTs s) ∧
    (∀ s : String, (∀ c ∈ s.data.drop 10, c ≠ '-') → normTs s = s) := by
  have hmk : ∀ s : String, (⟨s.data⟩ : String) = s := by
    intro s; cases s; rfl
  have hrepl2 : ∀ c : Char,
      (if (if c = '-' then ':' else c) = '-' then ':' else (if c = '-' then ':' else c)) =
        (if c = '-' then ':' else c) := by
    intro c
    by_cases h : c = '-' <;> simp [h]
  constructor
  · intro s
    unfold normTs
    refine congrArg String.mk ?_
    set f : Char → Char := fun c => if c = '-' then ':' else c with hf
    show (String.mk (s.data.take 10 ++ (s.data.drop 10).map f)).data.take 10 ++
        ((String.mk (s.data.take 10 ++ (s.data.drop 10).map f)).data.drop 10).map f =
        s.data.take 10 ++ (s.data.drop 10).map f
    have hdata : (String.mk (s.data.take 10 ++ (s.data.drop 10).map f)).data =
        s.data.take 10 ++ (s.data.drop 10).map f := rfl
    rw [hdata]
    have htlen : (s.data.take 10).length ≤ 10 := by
      rw [List.length_take]; omega
    by_cases hlen : 10 ≤ s.data.length
    · have ht10 : (s.data.take 10).length = 10 := by
        rw [List.length_take]; omega
      have htake : (s.data.take 10 ++ (s.data.drop 10).map f).take 10 = s.data.take 10 := by
        rw [List.take_append_eq_append_take, ht10]
        simp [List.take_of_length_le htlen]
      have hdrop : (s.data.take 10 ++ (s.data.drop 10).map f).drop 10 =
          (s.data.drop 10).map f := by
        rw [List.drop_append_eq_append_drop, ht10]
        simp [List.drop_of_length_le htlen]
      rw [htake, hdrop, List.map_map]
      congr 1
      apply List.map_congr_left
      intro c _
      exact hrepl2 c
    · have hdropnil : s.data.drop 10 = [] :=
        List.drop_eq_nil_of_le (Nat.le_of_lt (Nat.lt_of_not_le hlen))
      have htall : s.data.take 10 = s.data :=
        List.take_of_length_le (Nat.le_of_lt (Nat.lt_of_not_le hlen))
      rw [hdropnil, htall]
      simp only [List.map_nil, List.append_nil]
      rw [List.take_of_length_le (Nat.le_of_lt (Nat.lt_of_not_le hlen)),
        List.drop_eq_nil_of_le (Nat.le_of_lt (Nat.lt_of_not_le hlen))]
      simp
  · intro s hnd
    unfold normTs
    have : (s.data.drop 10).map (fun c => if c = '-' then ':' else c) = s.data.drop 10 := by
      conv_rhs => rw [← List.map_id (s.data.drop 10)]
      apply List.map_congr_left
      intro c hc
      simp [hnd c hc]
    rw [this]
    rw [List.take_append_drop]

theorem normTs_idempotent_noop_witness :
    (∀ c ∈ ("2025-11-22T10:00:00Z" : String).data.drop 10, c ≠ '-') ∧
    normTs "2025-11-22T10:00:00Z" = "2025-11-22T10:00:00Z" :=
  ⟨by decide, normTs_idempotent_noop.2 "2025-11-22T10:00:00Z" (by decide)⟩

/-- C5 counterexample: a prior artifact whose content is decodable JSON but not
an object (here the empty JSON list) makes resume raise an uncaught
`AttributeError` at `data.get(...)`, refuting "for every possible content ...
never fails fatally". -/
theorem resume_nonobject_fatal_cex :
    get_last_processed_file (some (some JVal.anil)) =
      Except.error PyErr.attributeError := rfl

/-- C5 amended: resume returns `(none, empty)` without error when the artifact
file is missing, when its content fails JSON decoding, or when it decodes to an
object lacking a truthy checkpoint or lacking an `events` key; on an object
with truthy checkpoint and a well-formed `events` list it returns the stored
checkpoint and the events keyed by id; but decodable content that is not an
object raises an uncaught `AttributeError` (and ill-formed `events` entries
raise `TypeError`/`KeyError`). -/
theorem resume_safe_degradation_amended :
    get_last_processed_file none = Except.ok (none, []) ∧
    get_last_processed_file (some none) = Except.ok (none, []) ∧
    (∀ data : JVal, data.isObj = true →
      (truthyO (data.get "lastProcessedFile") && (data.get "events").isSome) = false →
      get_last_processed_file (some (some data)) = Except.ok (none, [])) ∧
    (∀ data : JVal, data.isObj = false →
      get_last_processed_file (some (some data)) = Except.error PyErr.attributeError) ∧
    (∀ (data evs : JVal) (pairs : List (JVal × JVal)),
      data.isObj = true →
      truthyO (data.get "lastProcessedFile") = true →
      data.get "events" = some evs →
      eventPairs evs = Except.ok pairs →
      get_last_processed_file (some (some data)) =
        Except.ok (data.get "lastProcessedFile", pairs.foldl pyDictInsert [])) := by
  refine ⟨rfl, rfl, ?_, ?_, ?_⟩
  · intro data h1 h2
    simp only [get_last_processed_file, h1, h2]
    simp
  · intro data h1
    simp only [get_last_processed_file, h1]
    simp
  · intro data evs pairs h1 h2 h3 h4
    simp only [get_last_processed_file, h1, h2, h3, h4]
    simp only [Option.isSome_some, Bool.and_true, if_true, bind_ok]
    simp

theorem resume_safe_degradation_amended_witness :
    get_last_processed_file (some (some (JVal.ocons "lastProcessedFile"
        (JVal.str "data/history/a.json")
        (JVal.ocons "events"
          (JVal.acons (JVal.ocons "id" (JVal.str "A") JVal.onil) JVal.anil)
          JVal.onil)))) =
      Except.ok (some (JVal.str "data/history/a.json"),
        [(JVal.str "A", JVal.ocons "id" (JVal.str "A") JVal.onil)]) :=
  resume_safe_degradation_amended.2.2.2.2
    (JVal.ocons "lastProcessedFile" (JVal.str "data/history/a.json")
      (JVal.ocons "events"
        (JVal.acons (JVal.ocons "id" (JVal.str "A") JVal.onil) JVal.anil)
        JVal.onil))
    (JVal.acons (JVal.ocons "id" (JVal.str "A") JVal.onil) JVal.anil)
    [(JVal.str "A", JVal.ocons "id" (JVal.str "A") JVal.onil)]
    rfl rfl rfl rfl

/-- C7 counterexample: the checkpoint `data/history/2025/b.json` is recorded but
no longer among the store's keys (only `.../a.json` remains); the run succeeds,
reprocesses everything and persists the strictly smaller checkpoint
`.../a.json`, refuting monotonicity in the reprocess-all case. -/
theorem checkpoint_decrease_cex :
    mainRun storeC7 (some artC7) =
      Except.ok (some (Artifact.mk "data/history/2025/a.json" [])) ∧
    ("data/history/2025/a.json" : String).data <
      ("data/history/2025/b.json" : String).data :=
  ⟨rfl, by decide⟩

theorem find_after_decomp {c : String} :
    ∀ {l rest : List (String × Option Snapshot)}, find_after c l = some rest →
      ∃ pre m, l = pre ++ m :: rest ∧ normSlash m.1 = normSlash c := by
  intro l
  induction l with
  | nil => intro rest h; cases h
  | cons f fs ih =>
    intro rest h
    unfold find_after at h
    by_cases hc : normSlash f.1 = normSlash c
    · rw [if_pos hc] at h
      injection h with h
      exact ⟨[], f, by simp [h], hc⟩
    · rw [if_neg hc] at h
      obtain ⟨pre, m, heq, hm⟩ := ih h
      exact ⟨f :: pre, m, by simp [heq], hm⟩

/-- C7 amended: across successful runs the persisted checkpoint key is
non-decreasing whenever the recorded checkpoint is still found among the
(sorted, slash-normalized) store keys; when it is not found, the run
reprocesses everything and persists the largest store key, which can be
strictly smaller than the previous checkpoint (see the counterexample). -/
theorem checkpoint_monotone_amended :
    ∀ (store : List (String × Option Snapshot)) (disk : Option Artifact)
      (c : String) (evs : List Event) (rest : List (String × Option Snapshot))
      (art : Artifact),
      List.Pairwise (fun a b => a.1.data ≤ b.1.data) store →
      (∀ f ∈ store, normSlash f.1 = f.1) →
      resumeArtifact disk = (some c, evs) →
      normSlash c = c →
      find_after c store = some rest →
      mainRun store disk = Except.ok (some art) →
      c.data ≤ art.lastProcessedFile.data := by
  intro store disk c evs rest art hsort hslash hres hcnorm hfind hmain
  obtain ⟨pre, m, hstore, hm⟩ := find_after_decomp hfind
  have hmc : m.1 = c := by
    have hm1 : normSlash m.1 = m.1 := hslash m (by rw [hstore]; simp)
    rw [← hm1, hm, hcnorm]
  have hnf : find_new_files (some c) store = rest := by
    show (find_after c store).getD store = rest
    rw [hfind]
    rfl
  cases hpwres : processAndWrite rest evs with
  | error e =>
    have hm2 : mainRun store disk = Except.error e := by
      simp only [mainRun, hres, hnf, hpwres]
    rw [hm2] at hmain
    exact Except.noConfusion hmain
  | ok oart =>
    cases oart with
    | none =>
      have hm2 : mainRun store disk = Except.ok disk := by
        simp only [mainRun, hres, hnf, hpwres]
      rw [hm2] at hmain
      injection hmain with hda
      rw [hda] at hres
      have hres2 : (if art.lastProcessedFile = "" then ((none : Option String), ([] : List Event))
          else (some art.lastProcessedFile, dictById art.events)) = (some c, evs) := hres
      by_cases he : art.lastProcessedFile = ""
      · rw [if_pos he] at hres2
        injection hres2 with h1 _
        exact Option.noConfusion h1
      · rw [if_neg he] at hres2
        injection hres2 with h1 _
        injection h1 with h2
        rw [← h2]
    | some a =>
      have hm2 : mainRun store disk = Except.ok (some a) := by
        simp only [mainRun, hres, hnf, hpwres]
      rw [hm2] at hmain
      injection hmain with h1
      injection h1 with h2
      cases hlast : rest.getLast? with
      | none =>
        rw [List.getLast?_eq_none_iff.mp hlast] at hpwres
        exact absurd hpwres (by intro hx; injection hx with hx2; exact Option.noConfusion hx2)
      | some lastF =>
        have hlmem : lastF ∈ rest := List.mem_of_getLast?_eq_some hlast
        rw [processAndWrite_getLast_some hlast] at hpwres
        cases hpf : process_files (rest.map (·.2)) evs with
        | error e => rw [hpf, bind_error] at hpwres; exact Except.noConfusion hpwres
        | ok evs0 =>
          rw [hpf, bind_ok] at hpwres
          cases hse : serializeEvents evs0 with
          | error e => rw [hse, bind_error] at hpwres; exact Except.noConfusion hpwres
          | ok evs2 =>
            rw [hse, bind_ok] at hpwres
            injection hpwres with h3
            injection h3 with h4
            have hart : art = { lastProcessedFile := normSlash lastF.1, events := evs2 } := by
              rw [← h2, ← h4]
            have hlslash : normSlash lastF.1 = lastF.1 := by
              apply hslash
              rw [hstore]
              exact List.mem_append_right _ (List.mem_cons_of_mem m hlmem)
            have hle : m.1.data ≤ lastF.1.data := by
              rw [hstore] at hsort
              have h5 := (List.pairwise_append.mp hsort).2.1
              exact (List.pairwise_cons.mp h5).1 lastF hlmem
            rw [hart]
            show c.data ≤ (normSlash lastF.1).data
            rw [hlslash, ← hmc]
            exact hle

theorem checkpoint_monotone_amended_witness :
    ("data/history/a.json" : String).data ≤ ("data/history/b.json" : String).data :=
  checkpoint_monotone_amended
    [("data/history/a.json", some snapEmpty2), ("data/history/b.json", some snapEmpty2)]
    (some (Artifact.mk "data/history/a.json" []))
    "data/history/a.json" [] [("data/history/b.json", some snapEmpty2)]
    (Artifact.mk "data/history/b.json" [])
    (by decide) (by decide) rfl (by decide) rfl rfl

theorem findEvent_map_id_preserving (g : Event → Event) (hg : ∀ e, (g e).id = e.id)
    (l : List Event) (oid : String) :
    findEvent (l.map g) oid = (findEvent l oid).map g := by
  unfold findEvent
  rw [List.find?_map]
  have hcomp : ((fun e => e.id == oid) ∘ g) = fun e => e.id == oid := by
    funext e
    simp [Function.comp, hg]
  rw [hcomp]

theorem findEvent_append_of_none {l₁ : List Event} {oid : String}
    (h : findEvent l₁ oid = none) (l₂ : List Event) :
    findEvent (l₁ ++ l₂) oid = findEvent l₂ oid := by
  unfold findEvent at *
  induction l₁ with
  | nil => simp
  | cons a as ih =>
    rw [List.find?_cons] at h
    cases hp : (a.id == oid) with
    | true => rw [hp] at h; exact Option.noConfusion h
    | false =>
      rw [hp] at h
      simp only [List.cons_append, List.find?_cons, hp]
      exact ih h

theorem findEvent_append_of_some {l₁ : List Event} {oid : String} {e : Event}
    (h : findEvent l₁ oid = some e) (l₂ : List Event) :
    findEvent (l₁ ++ l₂) oid = some e := by
  unfold findEvent at *
  induction l₁ with
  | nil => exact Option.noConfusion h
  | cons a as ih =>
    rw [List.find?_cons] at h
    cases hp : (a.id == oid) with
    | true =>
      rw [hp] at h
      simp only [List.cons_append, List.find?_cons, hp]
      exact h
    | false =>
      rw [hp] at h
      simp only [List.cons_append, List.find?_cons, hp]
      exact ih h

theorem findEvent_updHist_other (oid' ts : String) (d : JVal) (oid : String)
    (hne : oid' ≠ oid) (l : List Event) :
    findEvent (l.map (updHist oid' ts d)) oid = findEvent l oid := by
  rw [findEvent_map_id_preserving _ (updHist_id oid' ts d)]
  cases hf : findEvent l oid with
  | none => rfl
  | some e =>
    rw [Option.map_some']
    have hp := List.find?_some hf
    have hid : e.id = oid := by simpa using hp
    have hfalse : (e.id == oid') = false := by
      simp only [beq_eq_false_iff_ne, ne_eq, hid]
      exact fun h => hne h.symm
    unfold updHist
    rw [hfalse]
    simp

theorem findEvent_mkNewEvent_other (ts oid' : String) (o : Outage) (oid : String)
    (hne : oid' ≠ oid) :
    findEvent [mkNewEvent ts oid' o] oid = none := by
  unfold findEvent mkNewEvent
  simp [hne]

theorem findEvent_stepOutage_other (ts : String) (dm : List (String × JVal))
    (o : Outage) (evs : List Event) (oid : String) (hne : o.name ≠ some oid) :
    findEvent (stepOutage ts dm evs o) oid = findEvent evs oid := by
  unfold stepOutage
  cases hn : o.name with
  | none => rfl
  | some oid' =>
    have hne' : oid' ≠ oid := fun h => hne (by rw [hn, h])
    by_cases he : oid' = ""
    · simp [he]
    · simp only [he, if_false]
      cases hf : findEvent evs oid' with
      | some e0 =>
        simp only [Option.isSome_some, if_true]
        cases lookupJ dm oid' with
        | none => rfl
        | some d =>
          by_cases ht : d.truthy
          · simp only [ht, if_true]
            exact findEvent_updHist_other oid' ts d oid hne' evs
          · simp [ht]
      | none =>
        simp only [Option.isSome_none, Bool.false_eq_true, if_false]
        have happend : findEvent (evs ++ [mkNewEvent ts oid' o]) oid = findEvent evs oid := by
          cases hg : findEvent evs oid with
          | some e => exact findEvent_append_of_some hg _
          | none =>
            rw [findEvent_append_of_none hg]
            exact findEvent_mkNewEvent_other ts oid' o oid hne'
        cases lookupJ dm oid' with
        | none => exact happend
        | some d =>
          by_cases ht : d.truthy
          · simp only [ht, if_true]
            rw [findEvent_updHist_other oid' ts d oid hne', happend]
          · simp only [ht, if_false]
            exact happend

theorem foldl_stepOutage_skip (ts : String) (dm : List (String × JVal))
    (l : List Outage) (evs : List Event) (oid : String)
    (hl : ∀ o' ∈ l, o'.name ≠ some oid) :
    findEvent (l.foldl (stepOutage ts dm) evs) oid = findEvent evs oid := by
  induction l generalizing evs with
  | nil => rfl
  | cons o rest ih =>
    rw [List.foldl_cons, ih _ (fun o' ho' => hl o' (List.mem_cons_of_mem o ho')),
      findEvent_stepOutage_other ts dm o evs oid (hl o (List.mem_cons_self o rest))]

theorem stepOutage_creates (ts : String) (dm : List (String × JVal))
    (evs : List Event) (o : Outage) (oid : String)
    (hn : o.name = some oid) (hne : oid ≠ "") (hnf : findEvent evs oid = none) :
    findEvent (stepOutage ts dm evs o) oid = some (createdEvent ts dm oid o) := by
  have hnew : findEvent [mkNewEvent ts oid o] oid = some (mkNewEvent ts oid o) := by
    unfold findEvent mkNewEvent
    simp
  have happ : findEvent (evs ++ [mkNewEvent ts oid o]) oid = some (mkNewEvent ts oid o) := by
    rw [findEvent_append_of_none hnf, hnew]
  unfold stepOutage
  rw [hn]
  simp only [hne, if_false, hnf, Option.isSome_none, Bool.false_eq_true, if_false]
  cases hd : lookupJ dm oid with
  | none =>
    rw [happ]
    unfold createdEvent
    rw [hd]
    rfl
  | some d =>
    by_cases ht : d.truthy
    · simp only [ht, if_true]
      rw [findEvent_map_id_preserving _ (updHist_id oid ts d), happ, Option.map_some']
      unfold createdEvent
      rw [hd]
      simp only [ht, if_true]
      unfold updHist mkNewEvent appendIfChanged
      simp
    · simp only [ht, Bool.false_eq_true, if_false]
      rw [happ]
      unfold createdEvent
      rw [hd]
      simp only [ht, Bool.false_eq_true, if_false]
      rfl

theorem currentActiveIds_ok_of_names :
    ∀ (outs : List Outage), (∀ o ∈ outs, o.name ≠ none) →
      ∃ cur, currentActiveIds outs = Except.ok cur ∧
        ∀ o ∈ outs, ∀ n, o.name = some n → n ∈ cur := by
  intro outs
  induction outs with
  | nil => intro _; exact ⟨[], rfl, by simp⟩
  | cons a rest ih =>
    intro h
    obtain ⟨cur', hok', hmem'⟩ := ih (fun o ho => h o (List.mem_cons_of_mem a ho))
    cases ha : a.name with
    | none => exact absurd ha (h a (List.mem_cons_self a rest))
    | some n =>
      refine ⟨n :: cur', ?_, ?_⟩
      · unfold currentActiveIds
        rw [ha]
        show (currentActiveIds rest >>= fun ns => Except.ok (n :: ns)) =
          Except.ok (n :: cur')
        rw [hok', bind_ok]
      · intro o ho n0 hn0
        rcases List.mem_cons.mp ho with rfl | hrest
        · rw [ha] at hn0
          injection hn0 with h2
          rw [← h2]
          exact List.mem_cons_self n cur'
        · exact List.mem_cons_of_mem n (hmem' o hrest n0 hn0)

/-- C6: Creation for every present entity: for a snapshot whose entity records
all carry a name, every record with a truthy name whose id has no event yet
gives rise, after that snapshot is folded, to an event with
`start = normTs observedTimestamp`, `end = null`, seed fields taken from the
record, and a history that is empty at creation (it carries at most the first
detail entry when a truthy payload is available in the same snapshot). -/
theorem creation_for_present_entity :
    ∀ (s : Snapshot) (evs : List Event) (act : List String) (o : Outage)
      (oid : String) (pre post : List Outage),
      s.active = pre ++ o :: post →
      o.name = some oid → oid ≠ "" →
      findEvent evs oid = none →
      (∀ o' ∈ pre ++ post, o'.name ≠ some oid) →
      (∀ o' ∈ s.active, o'.name ≠ none) →
      ∃ out act', processSnapshot (evs, act) (some s) = Except.ok (out, act') ∧
        ∃ e', findEvent out oid = some e' ∧
          e'.id = oid ∧ e'.start = normTs s.timestamp ∧ e'.«end» = none ∧
          e'.title = mkTitle o ∧ e'.allDay = false ∧ e'.type = o.type ∧
          e'.customers = o.customersCurrentlyOff ∧ e'.circuit = o.circuitName ∧
          e'.detail_history =
            (match lookupJ s.detailedOutageInfo oid with
             | some d => if d.truthy then [(normTs s.timestamp, d)] else []
             | none => []) := by
  intro s evs act o oid pre post hact hn hne hnf hother hnames
  obtain ⟨cur, hcur, hmem⟩ := currentActiveIds_ok_of_names s.active hnames
  have hfold : findEvent
      (s.active.foldl (stepOutage (normTs s.timestamp) s.detailedOutageInfo) evs) oid =
      some (createdEvent (normTs s.timestamp) s.detailedOutageInfo oid o) := by
    rw [hact, List.foldl_append, List.foldl_cons]
    have hpre : findEvent
        (pre.foldl (stepOutage (normTs s.timestamp) s.detailedOutageInfo) evs) oid = none := by
      rw [foldl_stepOutage_skip _ _ _ _ _
        (fun o' ho' => hother o' (List.mem_append_left _ ho'))]
      exact hnf
    rw [foldl_stepOutage_skip _ _ _ _ _
      (fun o' ho' => hother o' (List.mem_append_right _ ho'))]
    exact stepOutage_creates _ _ _ o oid hn hne hpre
  have hoid_cur : oid ∈ cur := by
    refine hmem o ?_ oid hn
    rw [hact]
    exact List.mem_append_right _ (List.mem_cons_self o post)
  have hfin : findEvent
      (finishStep (normTs s.timestamp) act cur
        (s.active.foldl (stepOutage (normTs s.timestamp) s.detailedOutageInfo) evs)) oid =
      some (createdEvent (normTs s.timestamp) s.detailedOutageInfo oid o) := by
    unfold finishStep
    rw [findEvent_map_id_preserving _ (closeIfFinished_id _ act cur), hfold,
      Option.map_some']
    congr 1
    unfold closeIfFinished
    rw [if_neg]
    intro hcond
    exact hcond.2.1 hoid_cur
  refine ⟨finishStep (normTs s.timestamp) act cur
      (s.active.foldl (stepOutage (normTs s.timestamp) s.detailedOutageInfo) evs), cur,
    ?_, createdEvent (normTs s.timestamp) s.detailedOutageInfo oid o, hfin,
    rfl, rfl, rfl, rfl, rfl, rfl, rfl, rfl, rfl⟩
  simp only [processSnapshot]
  rw [hcur, bind_ok]

theorem creation_for_present_entity_witness :
    ∃ out act', processSnapshot (([] : List Event), ([] : List String)) (some snapB1) =
        Except.ok (out, act') ∧
      ∃ e', findEvent out "B" = some e' ∧
        e'.id = "B" ∧ e'.start = normTs snapB1.timestamp ∧ e'.«end» = none ∧
        e'.title = mkTitle outageB ∧ e'.allDay = false ∧ e'.type = outageB.type ∧
        e'.customers = outageB.customersCurrentlyOff ∧
        e'.circuit = outageB.circuitName ∧
        e'.detail_history =
          (match lookupJ snapB1.detailedOutageInfo "B" with
           | some d => if d.truthy then [(normTs snapB1.timestamp, d)] else []
           | none => []) :=
  creation_for_present_entity snapB1 [] [] outageB "B" [] []
    rfl rfl (by decide) rfl (by simp) (by decide)

theorem updHist_end (oid ts : String) (d : JVal) (e : Event) :
    (updHist oid ts d e).«end» = e.«end» := by
  unfold updHist; split <;> rfl

theorem currentActiveIds_mem_of_ok :
    ∀ {outs : List Outage} {cur : List String}, currentActiveIds outs = Except.ok cur →
      ∀ o ∈ outs, ∀ n, o.name = some n → n ∈ cur := by
  intro outs
  induction outs with
  | nil => intro cur h o ho; cases ho
  | cons a rest ih =>
    intro cur h o ho n hn
    unfold currentActiveIds at h
    cases ha : a.name with
    | none => rw [ha] at h; exact Except.noConfusion h
    | some m =>
      rw [ha] at h
      have h' : (currentActiveIds rest >>= fun ns => Except.ok (m :: ns)) =
          Except.ok cur := h
      cases hr : currentActiveIds rest with
      | error e => rw [hr, bind_error] at h'; exact Except.noConfusion h'
      | ok ns =>
        rw [hr, bind_ok] at h'
        injection h' with h2
        rcases List.mem_cons.mp ho with rfl | hrest
        · rw [ha] at hn
          injection hn with h3
          rw [← h2, ← h3]
          exact List.mem_cons_self m ns
        · rw [← h2]
          exact List.mem_cons_of_mem m (ih hr o hrest n hn)

theorem stepOutage_open (ts : String) (dm : List (String × JVal)) (R : String → Prop)
    (o : Outage) (evs : List Event)
    (h : ∀ e ∈ evs, e.«end» = none → R e.id)
    (hn : ∀ n, o.name = some n → R n) :
    ∀ e ∈ stepOutage ts dm evs o, e.«end» = none → R e.id := by
  unfold stepOutage
  cases hna : o.name with
  | none => exact h
  | some oid =>
    have hmap : ∀ (l : List Event) (d : JVal), (∀ e ∈ l, e.«end» = none → R e.id) →
        ∀ e ∈ l.map (updHist oid ts d), e.«end» = none → R e.id := by
      intro l d hl e hme hopen
      obtain ⟨e₀, he₀, rfl⟩ := List.mem_map.mp hme
      rw [updHist_id]
      refine hl e₀ he₀ ?_
      rw [← updHist_end oid ts d e₀]
      exact hopen
    have hR : R oid := hn oid hna
    by_cases he : oid = ""
    · simp only [he, if_true]; exact h
    · simp only [he, if_false]
      have happ : ∀ e ∈ evs ++ [mkNewEvent ts oid o], e.«end» = none → R e.id := by
        intro e hme hopen
        rcases List.mem_append.mp hme with hin | hin
        · exact h e hin hopen
        · rw [List.mem_singleton.mp hin]; exact hR
      cases findEvent evs oid with
      | some e0 =>
        simp only [Option.isSome_some, if_true]
        cases lookupJ dm oid with
        | none => exact h
        | some d =>
          by_cases ht : d.truthy
          · simp only [ht, if_true]; exact hmap evs d h
          · simp only [ht, Bool.false_eq_true, if_false]; exact h
      | none =>
        simp only [Option.isSome_none, Bool.false_eq_true, if_false]
        cases lookupJ dm oid with
        | none => exact happ
        | some d =>
          by_cases ht : d.truthy
          · simp only [ht, if_true]; exact hmap _ d happ
          · simp only [ht, Bool.false_eq_true, if_false]; exact happ

theorem foldl_stepOutage_open (ts : String) (dm : List (String × JVal))
    (R : String → Prop) (l : List Outage) (evs : List Event)
    (h : ∀ e ∈ evs, e.«end» = none → R e.id)
    (hl : ∀ o ∈ l, ∀ n, o.name = some n → R n) :
    ∀ e ∈ l.foldl (stepOutage ts dm) evs, e.«end» = none → R e.id := by
  induction l generalizing evs with
  | nil => exact h
  | cons o rest ih =>
    rw [List.foldl_cons]
    exact ih _ (stepOutage_open ts dm R o evs h (hl o (List.mem_cons_self o rest)))
      (fun o' ho' => hl o' (List.mem_cons_of_mem o ho'))

theorem finishStep_congr (ts : String) (act₁ act₂ cur : List String) (evs : List Event)
    (h : ∀ e ∈ evs, e.«end» = none → (e.id ∈ act₁ ↔ e.id ∈ act₂) ∨ e.id ∈ cur) :
    finishStep ts act₁ cur evs = finishStep ts act₂ cur evs := by
  unfold finishStep
  apply List.map_congr_left
  intro e he
  unfold closeIfFinished
  by_cases hopen : e.«end» = none
  · rcases h e he hopen with hiff | hcur
    · by_cases h1 : e.id ∈ act₁
      · have h2 : e.id ∈ act₂ := hiff.mp h1
        by_cases hc : e.id ∈ cur <;> simp [h1, h2, hc, hopen]
      · have h2 : e.id ∉ act₂ := fun hx => h1 (hiff.mpr hx)
        simp [h1, h2]
    · simp [hcur]
  · simp [hopen]

theorem processSnapshot_congr_act (evs : List Event) (act₁ act₂ : List String)
    (f : Option Snapshot) (h₁ : StInv (evs, act₁)) (h₂ : StInv (evs, act₂)) :
    processSnapshot (evs, act₁) f = processSnapshot (evs, act₂) f := by
  cases f with
  | none => rfl
  | some data =>
    simp only [processSnapshot]
    cases hc : currentActiveIds data.active with
    | error e => rfl
    | ok cur =>
      rw [bind_ok, bind_ok]
      have hopenall : ∀ e ∈ data.active.foldl
          (stepOutage (normTs data.timestamp) data.detailedOutageInfo) evs,
          e.«end» = none → ((e.id ∈ act₁ ∧ e.id ∈ act₂) ∨ e.id ∈ cur) :=
        foldl_stepOutage_open _ _ (fun i => (i ∈ act₁ ∧ i ∈ act₂) ∨ i ∈ cur) _ _
          (fun e he hopen => Or.inl ⟨h₁ e he hopen, h₂ e he hopen⟩)
          (fun o ho n hn => Or.inr (currentActiveIds_mem_of_ok hc o ho n hn))
      rw [finishStep_congr (normTs data.timestamp) act₁ act₂ cur _
        (fun e he hopen => (hopenall e he hopen).imp
          (fun hand => ⟨fun _ => hand.2, fun _ => hand.1⟩) id)]

theorem processSnapshot_StInv (st st' : List Event × List String) (f : Option Snapshot)
    (h : StInv st) (hok : processSnapshot st f = Except.ok st') : StInv st' := by
  cases f with
  | none => exact Except.noConfusion hok
  | some data =>
    simp only [processSnapshot] at hok
    cases hc : currentActiveIds data.active with
    | error e => rw [hc, bind_error] at hok; exact Except.noConfusion hok
    | ok cur =>
      rw [hc, bind_ok] at hok
      injection hok with heq
      rw [← heq]
      intro e he hopen
      obtain ⟨e₀, he₀, rfl⟩ := List.mem_map.mp he
      have hopenall : ∀ e ∈ data.active.foldl
          (stepOutage (normTs data.timestamp) data.detailedOutageInfo) st.1,
          e.«end» = none → (e.id ∈ st.2 ∨ e.id ∈ cur) :=
        foldl_stepOutage_open _ _ (fun i => i ∈ st.2 ∨ i ∈ cur) _ _
          (fun e' he' hopen' => Or.inl (h e' he' hopen'))
          (fun o ho n hn => Or.inr (currentActiveIds_mem_of_ok hc o ho n hn))
      by_cases hcond : e₀.id ∈ st.2 ∧ e₀.id ∉ cur ∧ e₀.«end» = none
      · exfalso
        unfold closeIfFinished at hopen
        rw [if_pos hcond] at hopen
        exact Option.noConfusion hopen
      · have hcf : closeIfFinished (normTs data.timestamp) st.2 cur e₀ = e₀ := by
          unfold closeIfFinished
          rw [if_neg hcond]
        rw [hcf] at hopen ⊢
        have hor := hopenall e₀ he₀ hopen
        rcases hor with hin | hin
        · rcases not_and.mp hcond hin with hx
          by_cases hcu : e₀.id ∈ cur
          · exact hcu
          · exact absurd ⟨hcu, hopen⟩ hx
        · exact hin

theorem processFilesSt_StInv (files : List (Option Snapshot))
    (st st' : List Event × List String) (h : StInv st)
    (hok : processFilesSt files st = Except.ok st') : StInv st' := by
  induction files generalizing st with
  | nil =>
    simp only [processFilesSt, List.foldlM_nil, pure_eq_ok] at hok
    cases hok; exact h
  | cons f rest ih =>
    simp only [processFilesSt, List.foldlM_cons] at hok
    cases hstep : processSnapshot st f with
    | error e => rw [hstep, bind_error] at hok; exact Except.noConfusion hok
    | ok st1 =>
      rw [hstep, bind_ok] at hok
      exact ih st1 (processSnapshot_StInv st st1 f h hstep) hok

theorem processFilesSt_fst_congr (files : List (Option Snapshot)) (evs : List Event)
    (act₁ act₂ : List String) (h₁ : StInv (evs, act₁)) (h₂ : StInv (evs, act₂)) :
    (processFilesSt files (evs, act₁)).map (·.1) =
      (processFilesSt files (evs, act₂)).map (·.1) := by
  cases files with
  | nil => rfl
  | cons f rest =>
    simp only [processFilesSt, List.foldlM_cons]
    rw [processSnapshot_congr_act evs act₁ act₂ f h₁ h₂]

theorem processFilesSt_append (l₁ l₂ : List (Option Snapshot))
    (st : List Event × List String) :
    processFilesSt (l₁ ++ l₂) st = (processFilesSt l₁ st) >>= processFilesSt l₂ := by
  unfold processFilesSt
  rw [List.foldlM_append]

theorem StInv_ids (evs : List Event) : StInv (evs, evs.map (·.id)) :=
  fun _e he _ => List.mem_map_of_mem _ he

theorem StInv_noBody {evs : List Event} {act : List String} (h : StInv (evs, act)) :
    StInv (evs.map noBody, act) := by
  intro e he hopen
  obtain ⟨e₀, he₀, rfl⟩ := List.mem_map.mp he
  exact h e₀ he₀ hopen

theorem withBody_congr {a b : Event} (h : noBody a = noBody b) (s : Option String) :
    { a with body := s } = { b with body := s } := by
  cases a
  cases b
  simp only [noBody] at h
  injection h with h1 h2 h3 h4 h5 h6 h7 h8 h9 _
  simp [h1, h2, h3, h4, h5, h6, h7, h8, h9]

theorem format_congr_noBody {a b : Event} (h : noBody a = noBody b) :
    format_full_history_body a = format_full_history_body b := by
  have hid0 := congrArg Event.id h
  have hhist0 := congrArg Event.detail_history h
  have hid : a.id = b.id := hid0
  have hhist : a.detail_history = b.detail_history := hhist0
  unfold format_full_history_body
  rw [hid, hhist]

theorem serializeEvents_congr : ∀ {l₁ l₂ : List Event},
    l₁.map noBody = l₂.map noBody → serializeEvents l₁ = serializeEvents l₂ := by
  intro l₁
  induction l₁ with
  | nil =>
    intro l₂ h
    cases l₂ with
    | nil => rfl
    | cons b bs => exact absurd h (by simp)
  | cons a as ih =>
    intro l₂ h
    cases l₂ with
    | nil => exact absurd h (by simp)
    | cons b bs =>
      simp only [List.map_cons, List.cons.injEq] at h
      obtain ⟨hab, hrest⟩ := h
      have hrec := ih hrest
      unfold serializeEvents at hrec ⊢
      rw [List.mapM_cons, List.mapM_cons, format_congr_noBody hab, hrec]
      have hf : (format_full_history_body b >>= fun x =>
            Except.ok { a with body := some x }) =
          (format_full_history_body b >>= fun x =>
            Except.ok { b with body := some x }) :=
        congrArg _ (funext fun x => congrArg Except.ok (withBody_congr hab (some x)))
      rw [hf]

theorem serializeEvents_props : ∀ {l l' : List Event},
    serializeEvents l = Except.ok l' →
    l'.map noBody = l.map noBody ∧ l'.map (·.id) = l.map (·.id) := by
  intro l
  induction l with
  | nil =>
    intro l' h
    simp only [serializeEvents, List.mapM_nil, pure_eq_ok] at h
    cases h
    exact ⟨rfl, rfl⟩
  | cons a as ih =>
    intro l' h
    simp only [serializeEvents, List.mapM_cons] at h
    cases hf : format_full_history_body a with
    | error e =>
      rw [hf, bind_error, bind_error] at h
      exact Except.noConfusion h
    | ok bstr =>
      rw [hf, bind_ok, bind_ok] at h
      cases hm : serializeEvents as with
      | error e =>
        simp only [serializeEvents] at hm
        rw [hm, bind_error] at h
        exact Except.noConfusion h
      | ok ys =>
        simp only [serializeEvents] at hm
        rw [hm, bind_ok, pure_eq_ok] at h
        injection h with h2
        obtain ⟨ihb, ihi⟩ := ih (show serializeEvents as = Except.ok ys by
          simp only [serializeEvents]; exact hm)
        rw [← h2]
        constructor
        · simp only [List.map_cons, List.cons.injEq]
          exact ⟨rfl, ihb⟩
        · simp only [List.map_cons, List.cons.injEq]
          exact ⟨trivial, ihi⟩

theorem dictById_go (l : List Event) : ∀ (acc : List Event),
    (∀ e ∈ l, ∀ a ∈ acc, a.id ≠ e.id) → (l.map (·.id)).Nodup →
    l.foldl
      (fun d e =>
        if d.any (fun x => x.id == e.id) then
          d.map (fun x => if x.id == e.id then e else x)
        else d ++ [e]) acc = acc ++ l := by
  induction l with
  | nil => intro acc _ _; simp
  | cons e rest ih =>
    intro acc hdisj hnd
    simp only [List.foldl_cons]
    have hany : acc.any (fun x => x.id == e.id) = false := by
      rw [List.any_eq_false]
      intro x hx hbeq
      exact hdisj e (List.mem_cons_self e rest) x hx (by simpa using hbeq)
    rw [hany]
    simp only [Bool.false_eq_true, if_false]
    rw [ih (acc ++ [e]) ?_ (List.nodup_cons.mp hnd).2]
    · rw [List.append_assoc]
      rfl
    · intro e' he' a ha
      rcases List.mem_append.mp ha with hacc | hsing
      · exact hdisj e' (List.mem_cons_of_mem _ he') a hacc
      · rw [List.mem_singleton.mp hsing]
        have hnotin := (List.nodup_cons.mp hnd).1
        intro hx
        refine hnotin ?_
        show e.id ∈ List.map (fun x => x.id) rest
        rw [hx]
        exact List.mem_map_of_mem (·.id) he'

theorem dictById_self (l : List Event) (h : (l.map (·.id)).Nodup) :
    dictById l = l := by
  unfold dictById
  rw [dictById_go l [] (by simp) h]
  simp

theorem processAndWrite_getLast_none {nf : List (String × Option Snapshot)}
    {existing : List Event} (hl : nf.getLast? = none) :
    processAndWrite nf existing = Except.ok none := by
  unfold processAndWrite
  rw [hl]

theorem process_files_ok_st {files : List (Option Snapshot)} {existing evs : List Event}
    (h : process_files files existing = Except.ok evs) :
    ∃ st, processFilesSt files (existing, existing.map (·.id)) = Except.ok st ∧
      st.1 = evs := by
  rw [process_files_eq] at h
  cases hst : processFilesSt files (existing, existing.map (·.id)) with
  | error e => rw [hst] at h; exact Except.noConfusion h
  | ok st =>
    rw [hst] at h
    simp only [Except.map] at h
    injection h with h2
    exact ⟨st, rfl, h2⟩

/-- C1: Resumability of the fold: for every ordered batch of parseable
snapshots and every prior state (a mapping, so ids are unique), folding the
whole batch in one run yields the same persisted artifact — checkpoint and
event list, field for field, body included — as folding a prefix, persisting,
resuming from the persisted artifact and folding the remainder in a second
run. -/
theorem resumability_split_runs :
    ∀ (batch1 batch2 : List (String × Snapshot)) (prior : List Event)
      (artA artB1 artB2 : Artifact),
      (prior.map (·.id)).Nodup →
      artB1.lastProcessedFile ≠ "" →
      processAndWrite ((batch1 ++ batch2).map (fun q => (q.1, some q.2))) prior =
        Except.ok (some artA) →
      processAndWrite (batch1.map (fun q => (q.1, some q.2))) prior =
        Except.ok (some artB1) →
      processAndWrite (batch2.map (fun q => (q.1, some q.2)))
        (resumeArtifact (some artB1)).2 = Except.ok (some artB2) →
      artA = artB2 := by
  intro batch1 batch2 prior artA artB1 artB2 hnd hne hA hB1 hB2
  cases hl1 : (batch1.map (fun q => (q.1, some q.2))).getLast? with
  | none =>
    rw [processAndWrite_getLast_none hl1] at hB1
    injection hB1 with hx
    exact Option.noConfusion hx
  | some lastF1 =>
  rw [processAndWrite_getLast_some hl1] at hB1
  cases hpf1 : process_files ((batch1.map (fun q => (q.1, some q.2))).map (·.2)) prior with
  | error e => rw [hpf1, bind_error] at hB1; exact Except.noConfusion hB1
  | ok evs1 =>
  rw [hpf1, bind_ok] at hB1
  cases hse1 : serializeEvents evs1 with
  | error e => rw [hse1, bind_error] at hB1; exact Except.noConfusion hB1
  | ok sevs1 =>
  rw [hse1, bind_ok] at hB1
  injection hB1 with hB1'
  injection hB1' with hart1
  obtain ⟨st1, hst1, hst1e⟩ := process_files_ok_st hpf1
  have hnd1 : (evs1.map (·.id)).Nodup := by
    rw [← hst1e]
    exact processFilesSt_nodup _ _ _ hnd hst1
  obtain ⟨hsb, hsi⟩ := serializeEvents_props hse1
  have hndse : (sevs1.map (·.id)).Nodup := by rw [hsi]; exact hnd1
  have hresB1 : resumeArtifact (some artB1) = (some artB1.lastProcessedFile, sevs1) := by
    show (if artB1.lastProcessedFile = "" then ((none : Option String), ([] : List Event))
        else (some artB1.lastProcessedFile, dictById artB1.events)) =
      (some artB1.lastProcessedFile, sevs1)
    rw [if_neg hne]
    congr 1
    rw [← hart1]
    exact dictById_self sevs1 hndse
  rw [hresB1] at hB2
  have hB2' : processAndWrite (batch2.map (fun q => (q.1, some q.2))) sevs1 =
      Except.ok (some artB2) := hB2
  cases hl2 : (batch2.map (fun q => (q.1, some q.2))).getLast? with
  | none =>
    rw [processAndWrite_getLast_none hl2] at hB2'
    injection hB2' with hx
    exact Option.noConfusion hx
  | some lastF2 =>
  rw [processAndWrite_getLast_some hl2] at hB2'
  cases hpf2 : process_files ((batch2.map (fun q => (q.1, some q.2))).map (·.2)) sevs1 with
  | error e => rw [hpf2, bind_error] at hB2'; exact Except.noConfusion hB2'
  | ok evs2 =>
  rw [hpf2, bind_ok] at hB2'
  cases hse2 : serializeEvents evs2 with
  | error e => rw [hse2, bind_error] at hB2'; exact Except.noConfusion hB2'
  | ok sevs2 =>
  rw [hse2, bind_ok] at hB2'
  injection hB2' with hB2''
  injection hB2'' with hart2
  rw [List.map_append] at hA
  have hlA : (batch1.map (fun q => (q.1, some q.2)) ++
      batch2.map (fun q => (q.1, some q.2))).getLast? = some lastF2 := by
    rw [List.getLast?_append, hl2]
    rfl
  rw [processAndWrite_getLast_some hlA, List.map_append] at hA
  cases hpfA : process_files
      ((batch1.map (fun q => (q.1, some q.2))).map (·.2) ++
        (batch2.map (fun q => (q.1, some q.2))).map (·.2)) prior with
  | error e => rw [hpfA, bind_error] at hA; exact Except.noConfusion hA
  | ok evsA =>
  rw [hpfA, bind_ok] at hA
  cases hseA : serializeEvents evsA with
  | error e => rw [hseA, bind_error] at hA; exact Except.noConfusion hA
  | ok sevsA =>
  rw [hseA, bind_ok] at hA
  injection hA with hA'
  injection hA' with hartA
  obtain ⟨stA, hstA, hstAe⟩ := process_files_ok_st hpfA
  rw [processFilesSt_append, hst1, bind_ok] at hstA
  obtain ⟨stB, hstB, hstBe⟩ := process_files_ok_st hpf2
  have hA_nb : processFilesSt ((batch2.map (fun q => (q.1, some q.2))).map (·.2))
      (evs1.map noBody, st1.2) = Except.ok (stA.1.map noBody, stA.2) := by
    have hcomm := processFilesSt_noBody
      ((batch2.map (fun q => (q.1, some q.2))).map (·.2)) st1
    rw [hstA] at hcomm
    rw [show st1.1 = evs1 from hst1e] at hcomm
    simpa using hcomm
  have hB_nb : processFilesSt ((batch2.map (fun q => (q.1, some q.2))).map (·.2))
      (evs1.map noBody, evs1.map (·.id)) = Except.ok (stB.1.map noBody, stB.2) := by
    have hcomm := processFilesSt_noBody
      ((batch2.map (fun q => (q.1, some q.2))).map (·.2)) (sevs1, sevs1.map (·.id))
    rw [hstB] at hcomm
    simp only [Except.map] at hcomm
    rw [hsb, hsi] at hcomm
    exact hcomm
  have hSt1 : StInv st1 := processFilesSt_StInv _ _ _ (StInv_ids prior) hst1
  have hInvA : StInv (evs1.map noBody, st1.2) := by
    have hst1' : StInv (st1.1, st1.2) := hSt1
    rw [hst1e] at hst1'
    exact StInv_noBody hst1'
  have hInvB : StInv (evs1.map noBody, evs1.map (·.id)) := by
    have h0 := StInv_ids (evs1.map noBody)
    rwa [map_ids_of_id_preserving noBody noBody_id] at h0
  have hcongr := processFilesSt_fst_congr
    ((batch2.map (fun q => (q.1, some q.2))).map (·.2))
    (evs1.map noBody) (evs1.map (·.id)) st1.2 hInvB hInvA
  rw [hA_nb, hB_nb] at hcongr
  simp only [Except.map] at hcongr
  injection hcongr with hnb_eq
  have hnb : evsA.map noBody = evs2.map noBody := by
    rw [← hstAe, ← hstBe]
    exact hnb_eq.symm
  have hser_eq : serializeEvents evsA = serializeEvents evs2 := serializeEvents_congr hnb
  rw [hseA, hse2] at hser_eq
  injection hser_eq with hsevs
  rw [← hartA, ← hart2, hsevs]

theorem resumability_split_runs_witness :
    Artifact.mk "data/history/2.json"
      [{ id := "A", title := "Unknown (None customers)",
         start := "2025-01-01T00:00:00Z", «end» := some "2025-01-01T01:00:00Z",
         allDay := false, type := none, customers := none, circuit := none,
         detail_history := [], body := some "**Outage ID:** A" }] =
    Artifact.mk "data/history/2.json"
      [{ id := "A", title := "Unknown (None customers)",
         start := "2025-01-01T00:00:00Z", «end» := some "2025-01-01T01:00:00Z",
         allDay := false, type := none, customers := none, circuit := none,
         detail_history := [], body := some "**Outage ID:** A" }] :=
  resumability_split_runs
    [("data/history/1.json", snapA1)] [("data/history/2.json", snapEmpty2)] []
    (Artifact.mk "data/history/2.json"
      [{ id := "A", title := "Unknown (None customers)",
         start := "2025-01-01T00:00:00Z", «end» := some "2025-01-01T01:00:00Z",
         allDay := false, type := none, customers := none, circuit := none,
         detail_history := [], body := some "**Outage ID:** A" }])
    (Artifact.mk "data/history/1.json"
      [{ id := "A", title := "Unknown (None customers)",
         start := "2025-01-01T00:00:00Z", «end» := none,
         allDay := false, type := none, customers := none, circuit := none,
         detail_history := [], body := some "**Outage ID:** A" }])
    (Artifact.mk "data/history/2.json"
      [{ id := "A", title := "Unknown (None customers)",
         start := "2025-01-01T00:00:00Z", «end» := some "2025-01-01T01:00:00Z",
         allDay := false, type := none, customers := none, circuit := none,
         detail_history := [], body := some "**Outage ID:** A" }])
    (by decide) (by decide) rfl rfl rfl

end TopEnergy
